import Mathlib

/-!
Verification development for the projection-pushdown optimizer of a dataframe
query engine (`crates/polars-plan/src/plans/optimizer/projection_pushdown/mod.rs`).

The Rust source is shallowly embedded: column names are `String`s, the
expression arena is a list indexed by `Nat` handles, schemas are ordered
association lists from name to dtype, and the arena-threaded recursive
rewriter `push_down` becomes a structurally recursive function on a tree IR
whose variants are exactly those whose rewrite rules live in the embedded
source file.  Fallible Rust code (`PolarsResult`) becomes `Except`.
-/

namespace PolarsProj

/-- Column names (`PlSmallStr` in the source). -/
abbrev PlSmallStr := String

/-- A handle into an arena (`Node` in the source). -/
abbrev Node := Nat

/-- A `Node` known by invariant to point at a `Column` expression. -/
abbrev ColumnNode := Node

/-- Modelled from the spec: the optimizer only queries a dtype through the
four predicates `is_null`, `is_primitive_numeric`, `is_bool`, `is_temporal`
(the `DataType` enum itself lives in `polars-core`, outside the embedded
sources), so a dtype is modelled as the tuple of those four answers. -/
structure DataType where
  null : Bool
  primitiveNumeric : Bool
  boolean : Bool
  temporal : Bool
deriving DecidableEq, Repr

instance : Inhabited DataType := ⟨⟨false, false, false, false⟩⟩

/-- `DataType::is_null() || is_primitive_numeric() || is_bool() || is_temporal()`:
the "relatively cheap" dtypes preferred by count-star synthesis. -/
def DataType.cheap (dt : DataType) : Bool :=
  dt.null || dt.primitiveNumeric || dt.boolean || dt.temporal

/-- Modelled from the spec: `Schema` is an ordered name-to-dtype mapping with
unique names and positional access (`polars-schema`, outside the embedded
sources).  Embedded as the ordered list of its entries. -/
structure Schema where
  entries : List (PlSmallStr × DataType)
deriving DecidableEq, Repr

namespace Schema

def len (s : Schema) : Nat := s.entries.length

def get_at_index (s : Schema) (i : Nat) : Option (PlSmallStr × DataType) :=
  s.entries.get? i

def iter_names (s : Schema) : List PlSmallStr := s.entries.map Prod.fst

def contains (s : Schema) (n : PlSmallStr) : Bool :=
  s.entries.any (fun e => e.1 == n)

/-- `try_get_full(name) -> (position, name, dtype)` for the first (unique)
entry with that name. -/
def try_get_full_entries : List (PlSmallStr × DataType) → PlSmallStr →
    Option (Nat × PlSmallStr × DataType)
  | [], _ => none
  | e :: es, n =>
    if e.1 == n then some (0, e.1, e.2)
    else (try_get_full_entries es n).map (fun it => (it.1 + 1, it.2))

def try_get_full (s : Schema) (n : PlSmallStr) : Option (Nat × PlSmallStr × DataType) :=
  try_get_full_entries s.entries n

def index_of (s : Schema) (n : PlSmallStr) : Option Nat :=
  (try_get_full_entries s.entries n).map Prod.fst

/-- Append, or overwrite the dtype in place if the name is present. -/
def with_column (s : Schema) (n : PlSmallStr) (dt : DataType) : Schema :=
  if s.contains n then
    ⟨s.entries.map (fun e => if e.1 == n then (e.1, dt) else e)⟩
  else
    ⟨s.entries ++ [(n, dt)]⟩

/-- Remove the entry with the given name, preserving the order of the rest. -/
def shift_remove (s : Schema) (n : PlSmallStr) : Schema :=
  ⟨s.entries.filter (fun e => e.1 != n)⟩

/-- Remove the entry at an index, preserving the order of the rest. -/
def shift_remove_index (s : Schema) (i : Nat) : Option (PlSmallStr × DataType) × Schema :=
  (s.entries.get? i, ⟨s.entries.take i ++ s.entries.drop (i + 1)⟩)

/-- Insertion at `len` is an append (the only way the source uses it). -/
def insert_at_end (s : Schema) (n : PlSmallStr) (dt : DataType) : Schema :=
  ⟨s.entries ++ [(n, dt)]⟩

end Schema

/-- The expression node kinds the optimizer distinguishes: a column
reference, or any other expression, opaque except for its child handles
(through which its column references are discovered). -/
inductive AExpr where
  | column (name : PlSmallStr)
  | other (children : List Node)
deriving DecidableEq, Repr

/-- An arena handing out stable `Nat` handles on insertion. -/
structure Arena (α : Type) where
  items : List α
deriving DecidableEq, Repr

namespace Arena

def add (a : Arena α) (x : α) : Arena α × Node :=
  (⟨a.items ++ [x]⟩, a.items.length)

def get? (a : Arena α) (n : Node) : Option α := a.items.get? n

def size (a : Arena α) : Nat := a.items.length

end Arena

/-- `column_node_to_name`: the name behind a `ColumnNode` (by the
`ColumnNode` invariant the handle points at a `Column`; any other case is
unreachable and mapped to the empty name). -/
def column_node_to_name (ar : Arena AExpr) (n : ColumnNode) : PlSmallStr :=
  match ar.get? n with
  | some (.column nm) => nm
  | _ => ""

/-- `aexpr_to_column_nodes_iter`: the leaf `Column` handles reachable from a
root expression handle.  Fuel-indexed recursion; child handles always point
at earlier arena slots, so `ar.size` fuel is always enough. -/
def aexpr_to_column_nodes (ar : Arena AExpr) : Nat → Node → List Node
  | 0, _ => []
  | fuel + 1, n =>
    match ar.get? n with
    | some (.column _) => [n]
    | some (.other cs) => cs.foldr (fun c r => aexpr_to_column_nodes ar fuel c ++ r) []
    | none => []

/-- `PlHashSet::insert`: returns the set and whether the name was newly
inserted.  The hash set is embedded as a duplicate-free list kept in
insertion order. -/
def insertName (s : List PlSmallStr) (n : PlSmallStr) : List PlSmallStr × Bool :=
  if s.contains n then (s, false) else (s ++ [n], true)

/-- `ProjectionCopyState`: flags copied (not merged) across branches. -/
structure ProjectionCopyState where
  projections_seen : Nat := 0
  countStar : Bool := false
deriving DecidableEq, Repr

/-- `ProjectionContext`: the accumulated column handles required from the
current subtree, the parallel name set, and the copied flags. -/
structure ProjectionContext where
  acc_projections : List ColumnNode := []
  projected_names : List PlSmallStr := []
  inner : ProjectionCopyState := {}
deriving DecidableEq, Repr

namespace ProjectionContext

def new (acc : List ColumnNode) (names : List PlSmallStr)
    (inner : ProjectionCopyState) : ProjectionContext :=
  ⟨acc, names, inner⟩

/-- `has_pushed_down`: count star also acts like a pushdown, as a single
column will be selected at the source when there were no other projections. -/
def has_pushed_down (ctx : ProjectionContext) : Bool :=
  !ctx.acc_projections.isEmpty || ctx.inner.countStar

/-- `process_count_star_at_scan`: when nothing is accumulated, synthesize a
single cheap column (skip the first column, which can be the row index; take
the first cheap-typed one, else the last) and record it. -/
def process_count_star_at_scan (ctx : ProjectionContext) (schema : Schema)
    (ar : Arena AExpr) : ProjectionContext × Arena AExpr :=
  if ctx.acc_projections.isEmpty then
    match schema.len with
    | 0 => (ctx, ar)
    | n + 1 =>
      let e :=
        if n = 0 then (schema.get_at_index 0).getD ("", default)
        else
          ((schema.entries.drop 1).find? (fun p => p.2.cheap)).getD
            ((schema.get_at_index (schema.len - 1)).getD ("", default))
      let p := ar.add (.column e.1)
      ({ ctx with
          acc_projections := ctx.acc_projections ++ [p.2],
          projected_names := (insertName ctx.projected_names e.1).1 }, p.1)
  else (ctx, ar)

end ProjectionContext

/-- `RowIndex`: name (and offset) of the synthetic row-index column. -/
structure RowIndex where
  name : PlSmallStr
  offset : Nat := 0
deriving DecidableEq, Repr

/-- Insertion sort of full-column triples by their position key, used to
embed `sort_unstable_by_key(|item| item.0)` (keys are distinct whenever the
projected names are, so stability is irrelevant). -/
def insertByPos (x : Nat × PlSmallStr × DataType) :
    List (Nat × PlSmallStr × DataType) → List (Nat × PlSmallStr × DataType)
  | [] => [x]
  | y :: ys => if x.1 ≤ y.1 then x :: y :: ys else y :: insertByPos x ys

def sortByPos (l : List (Nat × PlSmallStr × DataType)) :
    List (Nat × PlSmallStr × DataType) :=
  l.foldr insertByPos []

/-- `get_scan_columns`: names needed at scan level; virtual columns (row
index, file path) are dropped; order optionally normalized to a reference
schema's column order. -/
def get_scan_columns (acc_projections : List ColumnNode) (ar : Arena AExpr)
    (row_index : Option RowIndex) (file_path_col : Option PlSmallStr)
    (normalize_order_schema : Option Schema) : Option (List PlSmallStr) :=
  if acc_projections.isEmpty then none
  else
    let column_names := acc_projections.filterMap (fun node =>
      let name := column_node_to_name ar node
      match row_index with
      | some ri => if ri.name == name then none else
        match file_path_col with
        | some fp => if fp == name then none else some name
        | none => some name
      | none =>
        match file_path_col with
        | some fp => if fp == name then none else some name
        | none => some name)
    let column_names :=
      match normalize_order_schema with
      | some schema =>
        (sortByPos (column_names.map (fun name =>
          (((schema.try_get_full name).map Prod.fst).getD 0, name, default)))).map
          (fun it => it.2.1)
      | none => column_names
    some column_names

/-- Modelled from the spec: `check_input_column_node` (defined beside the
optimizer, outside the embedded sources) tests the closure condition — the
column node's name must exist in the candidate input schema. -/
def check_input_column_node (ar : Arena AExpr) (n : ColumnNode)
    (input_schema : Schema) : Bool :=
  match ar.get? n with
  | some (.column nm) => input_schema.contains nm
  | _ => false

/-- `split_acc_projections`: partition the accumulated projections into those
that the downstream schema can supply (pushed further) and those that must be
resolved locally, with the name set of the pushed part. -/
def split_acc_projections (acc_projections : List ColumnNode)
    (down_schema : Schema) (ar : Arena AExpr) (expands_schema : Bool) :
    List ColumnNode × List ColumnNode × List PlSmallStr :=
  if !expands_schema && down_schema.len == acc_projections.length then
    ([], acc_projections, [])
  else
    let part := acc_projections.partition
      (fun e => check_input_column_node ar e down_schema)
    let names := part.1.foldl
      (fun ns p => (insertName ns (column_node_to_name ar p)).1) []
    (part.1, part.2, names)

/-- Loop body of `add_expr_to_accumulated`: insert one leaf column
reference, deduplicated through the name set. -/
def addRoot (ar : Arena AExpr) (st : List ColumnNode × List PlSmallStr)
    (root : ColumnNode) : List ColumnNode × List PlSmallStr :=
  let name := column_node_to_name ar root
  let ins := insertName st.2 name
  if ins.2 then (st.1 ++ [root], ins.1) else (st.1, ins.1)

/-- `add_expr_to_accumulated`: record every leaf column reference of an
expression, deduplicated through the name set. -/
def add_expr_to_accumulated (ar : Arena AExpr) (expr : Node)
    (acc_projections : List ColumnNode) (projected_names : List PlSmallStr) :
    List ColumnNode × List PlSmallStr :=
  (aexpr_to_column_nodes ar ar.size expr).foldl (addRoot ar)
    (acc_projections, projected_names)

/-- `add_str_to_accumulated`: single-name form; a no-op when pushdown is not
active (all columns are then already projected) or the name is present. -/
def add_str_to_accumulated (name : PlSmallStr) (ctx : ProjectionContext)
    (ar : Arena AExpr) : ProjectionContext × Arena AExpr :=
  if ctx.has_pushed_down && !ctx.projected_names.contains name then
    let p := ar.add (.column name)
    let r := add_expr_to_accumulated p.1 p.2 ctx.acc_projections ctx.projected_names
    ({ ctx with acc_projections := r.1, projected_names := r.2 }, p.1)
  else (ctx, ar)

/-- Errors of the embedded pass (`PolarsResult` failures). -/
inductive PError where
  | columnNotFound (name : PlSmallStr)
  | outsideFragment
deriving DecidableEq, Repr

/-- The lookup loop of `update_scan_schema`: each accumulated column's
`(position, name, dtype)` in the source schema, failing on the first name
the schema does not contain. -/
def collectFullCols (ar : Arena AExpr) (schema : Schema) :
    List ColumnNode → Except PError (List (Nat × PlSmallStr × DataType))
  | [] => .ok []
  | node :: rest =>
    match schema.try_get_full (column_node_to_name ar node) with
    | some item => do
      let tail ← collectFullCols ar schema rest
      return item :: tail
    | none => .error (.columnNotFound (column_node_to_name ar node))

/-- `update_scan_schema`: look up each accumulated column in the source
schema (error when absent), optionally sort by original position, and
rebuild a schema in that order. -/
def update_scan_schema (acc_projections : List ColumnNode) (ar : Arena AExpr)
    (schema : Schema) (sort_projections : Bool) : Except PError Schema := do
  let new_cols ← collectFullCols ar schema acc_projections
  let new_cols := if sort_projections then sortByPos new_cols else new_cols
  return new_cols.foldl (fun sch it => sch.with_column it.2.1 it.2.2) ⟨[]⟩

/-- `join_push_down` state: per-side pushdown lists and recorded name sets. -/
structure JoinPushState where
  pushdown_left : List ColumnNode := []
  pushdown_right : List ColumnNode := []
  names_left : List PlSmallStr := []
  names_right : List PlSmallStr := []
deriving DecidableEq, Repr

/-- `join_push_down`: route one candidate column to each join side whose
schema contains it and that has not recorded it yet.  Returns the updated
state, `pushed_at_least_one`, and `already_projected`. -/
def join_push_down (schema_left schema_right : Schema) (proj : ColumnNode)
    (st : JoinPushState) (ar : Arena AExpr) : JoinPushState × Bool × Bool :=
  let name := column_node_to_name ar proj
  let is_in_left := st.names_left.contains name
  let is_in_right := st.names_right.contains name
  let already_projected := is_in_left || is_in_right
  let (st, pushedL) :=
    if check_input_column_node ar proj schema_left && !is_in_left then
      ({ st with names_left := st.names_left ++ [name],
                 pushdown_left := st.pushdown_left ++ [proj] }, true)
    else (st, false)
  let (st, pushedR) :=
    if check_input_column_node ar proj schema_right && !is_in_right then
      ({ st with names_right := st.names_right ++ [name],
                 pushdown_right := st.pushdown_right ++ [proj] }, true)
    else (st, false)
  (st, pushedL || pushedR, already_projected)

/-- The scan-type tag (`FileScanIR`): anonymous scans carry whether they
allow projection pushdown; the file formats are distinguished only through
`sort_projection` and the count-star fast path. -/
inductive FileScanIR where
  | anonymous (allows_projection_pushdown : Bool)
  | ndjson
  | ipc
  | csv
  | parquet
  | pythonDataset
deriving DecidableEq, Repr

/-- Modelled from the spec: `sort_projection` (defined with the scan types,
outside the embedded sources) says whether the physical reader wants the
projected columns re-sorted into storage order — some formats always read in
storage order, the others only when a row index must be recomputed. -/
def FileScanIR.sort_projection (st : FileScanIR) (has_row_index : Bool) : Bool :=
  match st with
  | .csv => true
  | _ => has_row_index

/-- `FileInfo`: the scan's full file schema and the (possibly differently
typed) reader schema; both sides of the `Either` expose ordered names. -/
structure FileInfo where
  schema : Schema
  reader_schema : Option (Schema ⊕ Schema) := none
deriving DecidableEq, Repr

/-- The fields of `UnifiedScanArgs` the pass reads or writes. -/
structure UnifiedScanArgs where
  projection : Option (List PlSmallStr) := none
  row_index : Option RowIndex := none
  include_file_paths : Option PlSmallStr := none
deriving DecidableEq, Repr

/-- The plan IR, restricted to the variants whose pushdown rules are in the
embedded source file.  The arena-threaded plan graph is embedded as a tree:
every plan slot has a unique owner during the pass (`take`/`replace` on the
same slot), so arena indirection is observationally equivalent to direct
subtrees. -/
inductive IR where
  | dataframeScan (df : Nat) (schema : Schema) (output_schema : Option Schema)
  | scan (sources : Nat) (file_info : FileInfo) (hive_parts : Nat)
      (scan_type : FileScanIR) (predicate : Option Node)
      (unified_scan_args : UnifiedScanArgs) (output_schema : Option Schema)
  | sort (input : IR) (by_column : List Node) (slice : Option (Int × Nat))
  | distinct (input : IR) (subset : Option (List PlSmallStr))
  | filter (predicate : Node) (input : IR)
  | cache (input : IR)
  | mergeSorted (input_left : IR) (input_right : IR) (key : PlSmallStr)
  | simpleProjection (columns : Schema) (input : IR)
deriving DecidableEq, Repr

/-- Modelled from the spec: `IR::schema` (defined with the IR, outside the
embedded sources) — the output schema of each operator: scans report their
narrowed output schema when set, pass-through operators report their input's,
a simple projection reports its column schema. -/
def IR.schema : IR → Schema
  | .dataframeScan _ schema oschema => oschema.getD schema
  | .scan _ fi _ _ _ _ oschema => oschema.getD fi.schema
  | .sort i _ _ => i.schema
  | .distinct i _ => i.schema
  | .filter _ i => i.schema
  | .cache i => i.schema
  | .mergeSorted l _ _ => l.schema
  | .simpleProjection cols _ => cols

/-- Modelled from the spec: `IRBuilder::project_simple_nodes` — wrap a node
in an explicit simple-projection of the given column nodes, with dtypes
looked up in the wrapped node's schema. -/
def project_simple (acc : List ColumnNode) (ar : Arena AExpr) (input : IR) : IR :=
  .simpleProjection
    ⟨acc.map (fun n =>
      let nm := column_node_to_name ar n
      (nm, (((input.schema).try_get_full nm).map (fun it => it.2.2)).getD default))⟩
    input

/-- `finish_node_simple_projection`: wrap in a simple projection only when
there are local projections. -/
def finish_node_simple_projection (local_projections : List ColumnNode)
    (ar : Arena AExpr) (lp : IR) : IR :=
  if !local_projections.isEmpty then project_simple local_projections ar lp
  else lp

/-- The Sort rule's context augmentation: when pushdown is active, the leaf
columns of every sort-key expression are forced into the accumulated set. -/
def sortCtx (ctx : ProjectionContext) (by_column : List Node)
    (ar : Arena AExpr) : ProjectionContext :=
  if ctx.has_pushed_down then
    let r := by_column.foldl
      (fun (st : List ColumnNode × List PlSmallStr) node =>
        add_expr_to_accumulated ar node st.1 st.2)
      (ctx.acc_projections, ctx.projected_names)
    { ctx with acc_projections := r.1, projected_names := r.2 }
  else ctx

/-- The Filter rule's context augmentation: when pushdown is active, the
predicate's leaf columns are forced into the accumulated set. -/
def filterCtx (ctx : ProjectionContext) (predicate : Node)
    (ar : Arena AExpr) : ProjectionContext :=
  if ctx.has_pushed_down then
    let r := add_expr_to_accumulated ar predicate ctx.acc_projections ctx.projected_names
    { ctx with acc_projections := r.1, projected_names := r.2 }
  else ctx

/-- The Distinct rule's context augmentation: when pushdown is active, the
subset columns (or, with no subset, every input-schema column) are forced
into the accumulated set. -/
def distinctCtx (ctx : ProjectionContext) (subset : Option (List PlSmallStr))
    (input_schema : Schema) (ar : Arena AExpr) :
    ProjectionContext × Arena AExpr :=
  if ctx.has_pushed_down then
    match subset with
    | some ss => ss.foldl (fun st n => add_str_to_accumulated n st.1 st.2) (ctx, ar)
    | none =>
      input_schema.iter_names.foldl
        (fun st n => add_str_to_accumulated n st.1 st.2) (ctx, ar)
  else (ctx, ar)

/-- Whether the Scan arm runs the projection rewrite at all (anonymous scans
may forbid projection pushdown). -/
def scanDoOptimization : FileScanIR → Bool
  | .anonymous allows => allows
  | _ => true

/-- First name of the reader schema (either side of the `Either`). -/
def readerFirstName (rs : Option (Schema ⊕ Schema)) : Option PlSmallStr :=
  match rs with
  | some (.inl s) => s.iter_names.head?
  | some (.inr s) => s.iter_names.head?
  | none => none

/-- The shared tail of the Scan arm's rewrite loop: compute the physical
projection from the accumulated columns and rebuild the output schema
(moving the file-path column to the end when present). -/
def scanStep2 (fi : FileInfo) (st : FileScanIR) (usa : UnifiedScanArgs)
    (ctx : ProjectionContext) (ar : Arena AExpr) :
    Except PError (UnifiedScanArgs × Option Schema × ProjectionContext × Arena AExpr) := do
  let usa := { usa with projection :=
    (get_scan_columns ctx.acc_projections ar usa.row_index usa.include_file_paths none) }
  if usa.projection.isSome then
    let schema ← update_scan_schema ctx.acc_projections ar fi.schema
      (st.sort_projection usa.row_index.isSome)
    let schema :=
      match usa.include_file_paths with
      | some fp =>
        match schema.index_of fp with
        | some i =>
          let r := schema.shift_remove_index i
          match r.1 with
          | some e => r.2.insert_at_end e.1 e.2
          | none => r.2
        | none => schema
      | none => schema
    return (usa, some schema, ctx, ar)
  else
    return (usa, none, ctx, ar)

/-- The Scan arm's `loop` body (it runs once; `break` is an early return):
count-star synthesis first, then the projection/output-schema rewrite. -/
def scanLoop (cs : Bool) (fi : FileInfo) (st : FileScanIR)
    (usa : UnifiedScanArgs) (oschema : Option Schema) (ctx : ProjectionContext)
    (ar : Arena AExpr) :
    Except PError (UnifiedScanArgs × Option Schema × ProjectionContext × Arena AExpr) := do
  if !scanDoOptimization st then
    return (usa, oschema, ctx, ar)
  if cs then
    match st with
    | .anonymous _ =>
      -- Anonymous scans are not controlled by us; we cannot assume they
      -- support 0-column projections, so always project one column.
      let projection : List PlSmallStr := (readerFirstName fi.reader_schema).toList
      let usa := { usa with projection := some projection }
      if projection.isEmpty then
        return (usa, some ⟨[]⟩, ctx, ar)
      else
        let p := ar.add (.column (projection.headD ""))
        let ctx := { ctx with acc_projections := ctx.acc_projections ++ [p.2] }
        let usa := { usa with projection := some projection }
        scanStep2 fi st usa ctx p.1
    | _ =>
      -- Readers support projecting empty morsels with the correct height.
      let usa := { usa with projection := some [] }
      return (usa, some ⟨[]⟩, ctx, ar)
  else
    scanStep2 fi st usa ctx ar

/-- After the loop: if the row index (then the file-path column) was excluded
from the final output schema, remove it from the input file schema too, so
recomputed positional projection indices stay consistent. -/
def scanCull (fi : FileInfo) (usa : UnifiedScanArgs) (oschema : Option Schema) :
    FileInfo × UnifiedScanArgs :=
  let p1 :=
    match usa.row_index with
    | some ri =>
      if (match oschema with | some s => !s.contains ri.name | none => false) then
        ({ fi with schema := fi.schema.shift_remove ri.name },
         { usa with row_index := none })
      else (fi, usa)
    | none => (fi, usa)
  match p1.2.include_file_paths with
  | some fp =>
    if (match oschema with | some s => !s.contains fp | none => false) then
      ({ p1.1 with schema := p1.1.schema.shift_remove fp },
       { p1.2 with include_file_paths := none })
    else p1
  | none => p1

/-- The whole Scan arm of `push_down`: rewrite loop, virtual-column culling,
node rebuild.  The final context is returned so that its relation to the
accumulated-name invariant can be stated. -/
def processScan (cs : Bool) (sources : Nat) (fi : FileInfo) (hive : Nat)
    (st : FileScanIR) (pred : Option Node) (usa : UnifiedScanArgs)
    (oschema : Option Schema) (ctx : ProjectionContext) (ar : Arena AExpr) :
    Except PError (IR × ProjectionContext × Arena AExpr) := do
  let (usa, oschema, ctx, ar) ← scanLoop cs fi st usa oschema ctx ar
  let (fi, usa) := scanCull fi usa oschema
  return (.scan sources fi hive st pred usa oschema, ctx, ar)

/-- The recursive dispatcher `push_down`, one arm per embedded IR variant.
`cs` is the optimizer's `is_count_star` field; `ctx` the context for this
position.  `SimpleProjection` is handled by a rule outside the embedded
fragment, so the embedding reports it as such rather than guessing. -/
def pushDown (cs : Bool) (lp : IR) (ctx : ProjectionContext)
    (ar : Arena AExpr) : Except PError (IR × Arena AExpr) :=
  match lp with
  | .dataframeScan df schema oschema =>
    let p := if cs then ctx.process_count_star_at_scan schema ar else (ctx, ar)
    if p.1.has_pushed_down then do
      let s ← update_scan_schema p.1.acc_projections p.2 schema false
      return (.dataframeScan df schema (some s), p.2)
    else return (.dataframeScan df schema oschema, p.2)
  | .scan sources fi hive st pred usa oschema => do
    let r ← processScan cs sources fi hive st pred usa oschema ctx ar
    return (r.1, r.2.2)
  | .sort input by_column slice => do
    let ctx := sortCtx ctx by_column ar
    let (input', ar) ← pushDown cs input ctx ar
    return (.sort input' by_column slice, ar)
  | .distinct input subset => do
    let p := distinctCtx ctx subset input.schema ar
    let (input', ar) ← pushDown cs input p.1 p.2
    return (.distinct input' subset, ar)
  | .filter predicate input => do
    let ctx := filterCtx ctx predicate ar
    let (input', ar) ← pushDown cs input ctx ar
    return (.filter predicate input', ar)
  | .cache input =>
    -- projections above the cache are not pushed into the cached subtree;
    -- they are resolved here by wrapping the cache node.
    if ctx.acc_projections.isEmpty then
      return (.cache input, ar)
    else
      return (project_simple ctx.acc_projections ar (.cache input), ar)
  | .mergeSorted input_left input_right key => do
    let p :=
      if ctx.has_pushed_down then add_str_to_accumulated key ctx ar
      else (ctx, ar)
    let (left', ar) ← pushDown cs input_left p.1 p.2
    let (right', ar) ← pushDown cs input_right p.1 ar
    return (.mergeSorted left' right' key, ar)
  | .simpleProjection _ _ => .error .outsideFragment

/-- `IR::get_inputs`: the child subplans, in order. -/
def IR.get_inputs : IR → List IR
  | .dataframeScan .. => []
  | .scan .. => []
  | .sort i _ _ => [i]
  | .distinct i _ => [i]
  | .filter _ i => [i]
  | .cache i => [i]
  | .mergeSorted l r _ => [l, r]
  | .simpleProjection _ i => [i]

/-- `IR::with_inputs`: the same node with its children replaced in order. -/
def IR.with_inputs : IR → List IR → IR
  | .sort _ b s, [i] => .sort i b s
  | .distinct _ ss, [i] => .distinct i ss
  | .filter p _, [i] => .filter p i
  | .cache _, [i] => .cache i
  | .mergeSorted _ _ k, [l, r] => .mergeSorted l r k
  | .simpleProjection c _, [i] => .simpleProjection c i
  | lp, _ => lp

/-- `no_pushdown_restart_opt`: projection is done at this node, but
optimization restarts below — every child is rewritten with a fresh empty
context (only the copied flags survive), and the result is wrapped in a
simple projection of the accumulated columns when there are any. -/
def no_pushdown_restart_opt (cs : Bool) (lp : IR) (ctx : ProjectionContext)
    (ar : Arena AExpr) : Except PError (IR × Arena AExpr) := do
  let r ← lp.get_inputs.foldlM
    (fun (st : List IR × Arena AExpr) node => do
      let c := ProjectionContext.new [] [] ctx.inner
      let (alp, ar') ← pushDown cs node c st.2
      return (st.1 ++ [alp], ar'))
    (([], ar) : List IR × Arena AExpr)
  let lp := lp.with_inputs r.1
  return (finish_node_simple_projection ctx.acc_projections r.2 lp, r.2)

/-- `optimize`: seed an empty context and run the dispatcher. -/
def optimize (cs : Bool) (lp : IR) (ar : Arena AExpr) :
    Except PError (IR × Arena AExpr) :=
  pushDown cs lp {} ar

/-! ### Specification-side definitions used by the stated properties -/

/-- Leaf column names of an expression. -/
def leafNames (ar : Arena AExpr) (e : Node) : List PlSmallStr :=
  (aexpr_to_column_nodes ar ar.size e).map (column_node_to_name ar)

/-- The name set tracks the accumulated columns exactly (list-level form of
the pairing of `projected_names` with `acc_projections`). -/
def namesSync (ar : Arena AExpr) (ctx : ProjectionContext) : Prop :=
  ctx.projected_names = ctx.acc_projections.map (column_node_to_name ar)

/-- Same pairing for a bare `(acc_projections, projected_names)` pair. -/
def pairSync (ar : Arena AExpr) (p : List ColumnNode × List PlSmallStr) : Prop :=
  p.2 = p.1.map (column_node_to_name ar)

/-- All accumulated handles are valid in the arena. -/
def accValid (ar : Arena AExpr) (ctx : ProjectionContext) : Prop :=
  ∀ n ∈ ctx.acc_projections, n < ar.size

/-- Whether a name is the row-index or the file-path virtual column. -/
def isVirtualName (ri : Option RowIndex) (fp : Option PlSmallStr)
    (nm : PlSmallStr) : Bool :=
  (ri.map (fun r => r.name == nm)).getD false ||
  (fp.map (fun f => f == nm)).getD false

/-- The column that count-star synthesis chooses from a schema with at least
two columns, as the spec words it: the first column at position ≥ 1 whose
dtype is null, primitive-numeric, boolean or temporal, else the last
column. -/
def countStarChoice (schema : Schema) : PlSmallStr :=
  ((((schema.entries.drop 1).find? (fun p => p.2.cheap)).map Prod.fst).getD
    (((schema.entries.getLast?).map Prod.fst).getD ""))

/-- A schema contains every name of a request list. -/
def schemaContainsAll (s : Schema) (req : List PlSmallStr) : Bool :=
  req.all (fun nm => s.contains nm)

/-- The plan carries no scan annotations yet (the state in which the
optimizer is invoked by the planner). -/
def fresh : IR → Bool
  | .dataframeScan _ _ oschema => oschema.isNone
  | .scan _ _ _ _ _ usa oschema => usa.projection.isNone && oschema.isNone
  | .sort i _ _ => fresh i
  | .distinct i _ => fresh i
  | .filter _ i => fresh i
  | .cache i => fresh i
  | .mergeSorted l r _ => fresh l && fresh r
  | .simpleProjection _ i => fresh i

/-- No node of the plan is a simple projection (whose rewrite rule lives
outside the embedded fragment). -/
def noSimpleProj : IR → Bool
  | .dataframeScan .. => true
  | .scan .. => true
  | .sort i _ _ => noSimpleProj i
  | .distinct i _ => noSimpleProj i
  | .filter _ i => noSimpleProj i
  | .cache i => noSimpleProj i
  | .mergeSorted l r _ => noSimpleProj l && noSimpleProj r
  | .simpleProjection _ _ => false

/-- Schema-validity of a plan: every column an operator references exists in
its input's schema (with merge-sorted inputs schema-equal, as the engine
requires). -/
def wf (ar : Arena AExpr) : IR → Bool
  | .dataframeScan .. => true
  | .scan .. => true
  | .sort i bys _ =>
    bys.all (fun e => schemaContainsAll i.schema (leafNames ar e)) && wf ar i
  | .distinct i ss =>
    schemaContainsAll i.schema (ss.getD i.schema.iter_names) && wf ar i
  | .filter p i => schemaContainsAll i.schema (leafNames ar p) && wf ar i
  | .cache i => wf ar i
  | .mergeSorted l r k =>
    (l.schema == r.schema) && l.schema.contains k && wf ar l && wf ar r
  | .simpleProjection cols i =>
    schemaContainsAll i.schema cols.iter_names && wf ar i

/-- Every scan of the subtree exposes all requested names in its effective
output schema. -/
def scansContain (req : List PlSmallStr) : IR → Bool
  | .dataframeScan _ schema oschema => schemaContainsAll (oschema.getD schema) req
  | .scan _ fi _ _ _ _ oschema => schemaContainsAll (oschema.getD fi.schema) req
  | .sort i _ _ => scansContain req i
  | .distinct i _ => scansContain req i
  | .filter _ i => scansContain req i
  | .cache i => scansContain req i
  | .mergeSorted l r _ => scansContain req l && scansContain req r
  | .simpleProjection _ i => scansContain req i

/-- The closure property: every column name an operator references is still
present in the effective output schema of every scan below it. -/
def closureOK (ar : Arena AExpr) : IR → Bool
  | .dataframeScan .. => true
  | .scan .. => true
  | .sort i bys _ =>
    bys.all (fun e => scansContain (leafNames ar e) i) && closureOK ar i
  | .distinct i ss => scansContain (ss.getD i.schema.iter_names) i && closureOK ar i
  | .filter p i => scansContain (leafNames ar p) i && closureOK ar i
  | .cache i => closureOK ar i
  | .mergeSorted l r k =>
    scansContain [k] l && scansContain [k] r && closureOK ar l && closureOK ar r
  | .simpleProjection cols i => scansContain cols.iter_names i && closureOK ar i

/-- The row index surviving virtual-column culling against an output
schema. -/
def keepRi (ri : Option RowIndex) (S : Schema) : Option RowIndex :=
  match ri with
  | some r => if S.contains r.name then some r else none
  | none => none

/-- The file-path column surviving virtual-column culling. -/
def keepFp (fp : Option PlSmallStr) (S : Schema) : Option PlSmallStr :=
  match fp with
  | some f => if S.contains f then some f else none
  | none => none

/-- The input file schema after culling a dropped row index. -/
def cullSchemaRi (sch : Schema) (ri : Option RowIndex) (S : Schema) : Schema :=
  match ri with
  | some r => if S.contains r.name then sch else sch.shift_remove r.name
  | none => sch

/-- The input file schema after culling a dropped file-path column. -/
def cullSchemaFp (sch : Schema) (fp : Option PlSmallStr) (S : Schema) : Schema :=
  match fp with
  | some f => if S.contains f then sch else sch.shift_remove f
  | none => sch

/-- Sequential rewriting of a child list, each child with a fresh empty
context carrying only the copied flags — the recursion pattern
`no_pushdown_restart_opt` is specified to follow. -/
def mapPushDownEmpty (cs : Bool) (inner : ProjectionCopyState) :
    List IR → Arena AExpr → Except PError (List IR × Arena AExpr)
  | [], ar => .ok ([], ar)
  | i :: is, ar => do
    let (i', ar') ← pushDown cs i (ProjectionContext.new [] [] inner) ar
    let (is', ar'') ← mapPushDownEmpty cs inner is ar'
    return (i' :: is', ar'')

/-! ### Basic lemmas about the embedded substrate -/

theorem Arena.get?_add_self (ar : Arena α) (x : α) :
    (ar.add x).1.get? (ar.add x).2 = some x := by
  simp [Arena.add, Arena.get?]

theorem Arena.get?_add_of_lt (ar : Arena α) (x : α) (n : Node) (h : n < ar.size) :
    (ar.add x).1.get? n = ar.get? n := by
  simp only [Arena.add, Arena.get?, Arena.size] at *
  exact List.get?_append h

theorem column_node_to_name_add (ar : Arena AExpr) (x : AExpr) (n : Node)
    (h : n < ar.size) :
    column_node_to_name (ar.add x).1 n = column_node_to_name ar n := by
  unfold column_node_to_name
  rw [Arena.get?_add_of_lt ar x n h]

theorem contains_eq_mem (s : List PlSmallStr) (n : PlSmallStr) :
    s.contains n = true ↔ n ∈ s := List.elem_iff

theorem mem_insertName (s : List PlSmallStr) (n m : PlSmallStr) :
    m ∈ (insertName s n).1 ↔ m ∈ s ∨ m = n := by
  by_cases h : s.contains n = true
  · simp only [insertName, h, if_true]
    exact ⟨Or.inl, fun hm => hm.elim id (fun he => he ▸ (contains_eq_mem s n).mp h)⟩
  · rw [Bool.not_eq_true] at h
    simp only [insertName, h, Bool.false_eq_true, if_false, List.mem_append,
      List.mem_singleton]

theorem Schema.contains_iff (s : Schema) (n : PlSmallStr) :
    s.contains n = true ↔ ∃ dt, (n, dt) ∈ s.entries := by
  simp only [Schema.contains, List.any_eq_true, beq_iff_eq]
  constructor
  · rintro ⟨e, he, rfl⟩
    exact ⟨e.2, he⟩
  · rintro ⟨dt, h⟩
    exact ⟨(n, dt), h, rfl⟩

theorem Schema.try_get_full_entries_isSome (es : List (PlSmallStr × DataType))
    (n : PlSmallStr) :
    (Schema.try_get_full_entries es n).isSome = es.any (fun e => e.1 == n) := by
  induction es with
  | nil => rfl
  | cons e es ih =>
    by_cases h : (e.1 == n) = true
    · simp [Schema.try_get_full_entries, h]
    · rw [Bool.not_eq_true] at h
      simp [Schema.try_get_full_entries, h, Option.isSome_map', ih]

theorem Schema.try_get_full_entries_some (es : List (PlSmallStr × DataType))
    (n : PlSmallStr) (it : Nat × PlSmallStr × DataType)
    (h : Schema.try_get_full_entries es n = some it) :
    it.2.1 = n ∧ (n, it.2.2) ∈ es := by
  induction es generalizing it with
  | nil => exact absurd h (by simp [Schema.try_get_full_entries])
  | cons e es ih =>
    rw [Schema.try_get_full_entries] at h
    by_cases he : (e.1 == n) = true
    · rw [if_pos he] at h
      have h' := Option.some.inj h
      subst h'
      have he' : e.1 = n := by simpa using he
      refine ⟨he', ?_⟩
      rw [← he', Prod.mk.eta]
      exact List.mem_cons_self _ _
    · rw [Bool.not_eq_true] at he
      rw [he, if_neg (by simp)] at h
      rcases Option.map_eq_some'.mp h with ⟨it', hit', rfl⟩
      rcases ih it' hit' with ⟨h1, h2⟩
      exact ⟨h1, List.mem_cons_of_mem _ h2⟩

theorem map_nameOf_add (ar : Arena AExpr) (x : AExpr) (acc : List ColumnNode)
    (hv : ∀ n ∈ acc, n < ar.size) :
    acc.map (column_node_to_name (ar.add x).1) = acc.map (column_node_to_name ar) :=
  List.map_congr_left (fun n hn => column_node_to_name_add ar x n (hv n hn))

theorem column_node_to_name_add_self (ar : Arena AExpr) (nm : PlSmallStr) :
    column_node_to_name (ar.add (.column nm)).1 ar.size = nm := by
  unfold column_node_to_name
  rw [show ar.size = (ar.add (AExpr.column nm)).2 from rfl, Arena.get?_add_self]

theorem Schema.try_get_full_isSome (s : Schema) (n : PlSmallStr) :
    (s.try_get_full n).isSome = s.contains n := by
  rw [Schema.try_get_full, Schema.try_get_full_entries_isSome]
  rfl

theorem Schema.try_get_full_some (s : Schema) (n : PlSmallStr)
    (it : Nat × PlSmallStr × DataType) (h : s.try_get_full n = some it) :
    it.2.1 = n ∧ (n, it.2.2) ∈ s.entries :=
  Schema.try_get_full_entries_some s.entries n it h

theorem Schema.contains_iff_mem_iter_names (s : Schema) (n : PlSmallStr) :
    s.contains n = true ↔ n ∈ s.iter_names := by
  rw [Schema.contains_iff, Schema.iter_names]
  constructor
  · rintro ⟨dt, h⟩
    exact List.mem_map.mpr ⟨(n, dt), h, rfl⟩
  · intro h
    rcases List.mem_map.mp h with ⟨e, he, rfl⟩
    exact ⟨e.2, by rwa [Prod.mk.eta]⟩

/-! ### Lemmas about the accumulation helpers -/

theorem addRoot_eq (ar : Arena AExpr) (st : List ColumnNode × List PlSmallStr)
    (root : ColumnNode) :
    addRoot ar st root =
      if st.2.contains (column_node_to_name ar root) then (st.1, st.2)
      else (st.1 ++ [root], st.2 ++ [column_node_to_name ar root]) := by
  by_cases h : column_node_to_name ar root ∈ st.2
  · have hc : st.2.contains (column_node_to_name ar root) = true :=
      (contains_eq_mem _ _).mpr h
    simp [addRoot, insertName, hc, h]
  · have hc : st.2.contains (column_node_to_name ar root) = false := by
      rw [← Bool.not_eq_true]
      exact fun hh => h ((contains_eq_mem _ _).mp hh)
    simp [addRoot, insertName, hc, h]

theorem foldl_addRoot_sync (ar : Arena AExpr) (roots : List Node) :
    ∀ st, pairSync ar st → pairSync ar (roots.foldl (addRoot ar) st) := by
  induction roots with
  | nil => exact fun st h => h
  | cons r rs ih =>
    intro st h
    rw [List.foldl_cons]
    apply ih
    rw [addRoot_eq]
    by_cases hc : st.2.contains (column_node_to_name ar r) = true
    · rw [if_pos hc]
      exact h
    · rw [if_neg hc]
      unfold pairSync at h ⊢
      simp only [List.map_append, List.map_cons, List.map_nil, ← h]

theorem foldl_addRoot_mem (ar : Arena AExpr) (roots : List Node) :
    ∀ st x, x ∈ (roots.foldl (addRoot ar) st).2 ↔
      x ∈ st.2 ∨ x ∈ roots.map (column_node_to_name ar) := by
  induction roots with
  | nil => simp
  | cons r rs ih =>
    intro st x
    rw [List.foldl_cons, ih, addRoot_eq]
    by_cases hc : st.2.contains (column_node_to_name ar r)
    · simp only [hc, if_true, List.map_cons, List.mem_cons]
      constructor
      · exact fun h => h.elim (fun h1 => Or.inl h1) (fun h1 => Or.inr (Or.inr h1))
      · rintro (h1 | h1 | h1)
        · exact Or.inl h1
        · exact Or.inl (h1 ▸ (contains_eq_mem _ _).mp hc)
        · exact Or.inr h1
    · simp only [hc, Bool.false_eq_true, if_false, List.mem_append,
        List.mem_singleton, List.map_cons, List.mem_cons]
      tauto

theorem foldl_addRoot_acc_mem (ar : Arena AExpr) (roots : List Node) :
    ∀ st n, n ∈ (roots.foldl (addRoot ar) st).1 → n ∈ st.1 ∨ n ∈ roots := by
  induction roots with
  | nil => exact fun st n h => Or.inl h
  | cons r rs ih =>
    intro st n h
    rcases ih _ n h with h1 | h1
    · rw [addRoot_eq] at h1
      by_cases hc : st.2.contains (column_node_to_name ar r)
      · simp only [hc, if_true] at h1
        exact Or.inl h1
      · simp only [hc, Bool.false_eq_true, if_false, List.mem_append,
          List.mem_singleton] at h1
        rcases h1 with h2 | h2
        · exact Or.inl h2
        · exact Or.inr (h2 ▸ List.mem_cons_self _ _)
    · exact Or.inr (List.mem_cons_of_mem _ h1)

theorem mem_foldr_append {α β : Type} (f : α → List β) (cs : List α) (n : β) :
    n ∈ cs.foldr (fun c r => f c ++ r) [] ↔ ∃ c ∈ cs, n ∈ f c := by
  induction cs with
  | nil => simp
  | cons c cs ih => simp [ih]

theorem aexpr_to_column_nodes_valid (ar : Arena AExpr) :
    ∀ (fuel : Nat) (e n : Node), n ∈ aexpr_to_column_nodes ar fuel e → n < ar.size := by
  intro fuel
  induction fuel with
  | zero => simp [aexpr_to_column_nodes]
  | succ f ih =>
    intro e n h
    unfold aexpr_to_column_nodes at h
    rcases hg : ar.get? e with _ | x
    · rw [hg] at h
      simp at h
    · rw [hg] at h
      rcases x with nm | cs
      · rw [List.mem_singleton] at h
        subst h
        have := List.get?_eq_some.mp hg
        exact this.1
      · rcases (mem_foldr_append _ cs n).mp h with ⟨c, _, hc⟩
        exact ih c n hc

theorem add_expr_sync (ar : Arena AExpr) (e : Node) (acc : List ColumnNode)
    (names : List PlSmallStr) (h : names = acc.map (column_node_to_name ar)) :
    pairSync ar (add_expr_to_accumulated ar e acc names) :=
  foldl_addRoot_sync ar _ (acc, names) h

theorem add_expr_mem (ar : Arena AExpr) (e : Node) (acc : List ColumnNode)
    (names : List PlSmallStr) (x : PlSmallStr) :
    x ∈ (add_expr_to_accumulated ar e acc names).2 ↔
      x ∈ names ∨ x ∈ leafNames ar e :=
  foldl_addRoot_mem ar _ (acc, names) x

theorem add_expr_acc_valid (ar : Arena AExpr) (e : Node) (acc : List ColumnNode)
    (names : List PlSmallStr) (hv : ∀ n ∈ acc, n < ar.size) :
    ∀ n ∈ (add_expr_to_accumulated ar e acc names).1, n < ar.size := by
  intro n hn
  rcases foldl_addRoot_acc_mem ar _ (acc, names) n hn with h | h
  · exact hv n h
  · exact aexpr_to_column_nodes_valid ar _ e n h

theorem add_expr_fresh_column (ar : Arena AExpr) (nm : PlSmallStr)
    (acc : List ColumnNode) (names : List PlSmallStr)
    (hc : names.contains nm = false) :
    add_expr_to_accumulated (ar.add (.column nm)).1 (ar.add (.column nm)).2 acc names =
      (acc ++ [ar.size], names ++ [nm]) := by
  unfold add_expr_to_accumulated
  have hsz : ((ar.add (AExpr.column nm)).1).size = ar.size + 1 := by
    simp [Arena.add, Arena.size]
  rw [hsz]
  rw [show aexpr_to_column_nodes (ar.add (.column nm)).1 (ar.size + 1)
        ((ar.add (.column nm)).2) = [(ar.add (.column nm)).2] by
      unfold aexpr_to_column_nodes
      rw [Arena.get?_add_self]]
  rw [List.foldl_cons, List.foldl_nil, addRoot_eq,
    show (ar.add (AExpr.column nm)).2 = ar.size from rfl,
    column_node_to_name_add_self, hc]
  simp [Arena.add, Arena.size]

theorem add_str_eq (nm : PlSmallStr) (ctx : ProjectionContext) (ar : Arena AExpr) :
    add_str_to_accumulated nm ctx ar =
      if ctx.has_pushed_down && !ctx.projected_names.contains nm then
        ({ ctx with acc_projections := ctx.acc_projections ++ [ar.size],
                    projected_names := ctx.projected_names ++ [nm] },
         (ar.add (.column nm)).1)
      else (ctx, ar) := by
  by_cases h : (ctx.has_pushed_down && !ctx.projected_names.contains nm) = true
  · have hc : ctx.projected_names.contains nm = false := by
      rcases Bool.and_eq_true_iff.mp h with ⟨_, h2⟩
      rwa [Bool.not_eq_true'] at h2
    rw [add_str_to_accumulated, if_pos h, if_pos h]
    simp only [add_expr_fresh_column ar nm ctx.acc_projections ctx.projected_names hc]
  · rw [add_str_to_accumulated, if_neg h, if_neg h]

/-- The fold that the Distinct rule uses: repeated `add_str_to_accumulated`. -/
theorem foldl_add_str_names (L : List PlSmallStr) :
    ∀ (ctx : ProjectionContext) (ar : Arena AExpr),
      ctx.has_pushed_down = true →
      (((L.foldl (fun st n => add_str_to_accumulated n st.1 st.2) (ctx, ar)).1).has_pushed_down
          = true) ∧
      ∀ x, x ∈ ((L.foldl (fun st n => add_str_to_accumulated n st.1 st.2) (ctx, ar)).1).projected_names
          ↔ x ∈ ctx.projected_names ∨ x ∈ L := by
  induction L with
  | nil => exact fun ctx ar h => ⟨h, by simp⟩
  | cons nm L ih =>
    intro ctx ar h
    rw [List.foldl_cons]
    rw [add_str_eq]
    by_cases hg : (ctx.has_pushed_down && !ctx.projected_names.contains nm) = true
    · rw [if_pos hg]
      have hp : ProjectionContext.has_pushed_down
          { ctx with acc_projections := ctx.acc_projections ++ [ar.size],
                     projected_names := ctx.projected_names ++ [nm] } = true := by
        simp [ProjectionContext.has_pushed_down]
      rcases ih _ _ hp with ⟨h1, h2⟩
      refine ⟨h1, fun x => ?_⟩
      rw [h2 x]
      simp only [List.mem_append, List.mem_singleton, List.mem_cons]
      tauto
    · rw [if_neg hg]
      have hcon : ctx.projected_names.contains nm = true := by
        cases hcc : ctx.projected_names.contains nm with
        | false =>
          exact absurd (by rw [h, hcc]; rfl) hg
        | true => rfl
      rcases ih _ _ h with ⟨h1, h2⟩
      refine ⟨h1, fun x => ?_⟩
      rw [h2 x]
      simp only [List.mem_cons]
      constructor
      · exact fun hh => hh.elim Or.inl (fun hh1 => Or.inr (Or.inr hh1))
      · rintro (hh | hh | hh)
        · exact Or.inl hh
        · exact Or.inl (hh ▸ (contains_eq_mem _ _).mp hcon)
        · exact Or.inr hh

theorem foldl_add_str_sync (L : List PlSmallStr) :
    ∀ (ctx : ProjectionContext) (ar : Arena AExpr),
      namesSync ar ctx → accValid ar ctx →
      namesSync ((L.foldl (fun st n => add_str_to_accumulated n st.1 st.2) (ctx, ar)).2)
        ((L.foldl (fun st n => add_str_to_accumulated n st.1 st.2) (ctx, ar)).1) ∧
      accValid ((L.foldl (fun st n => add_str_to_accumulated n st.1 st.2) (ctx, ar)).2)
        ((L.foldl (fun st n => add_str_to_accumulated n st.1 st.2) (ctx, ar)).1) := by
  induction L with
  | nil => exact fun ctx ar h1 h2 => ⟨h1, h2⟩
  | cons nm L ih =>
    intro ctx ar h1 h2
    rw [List.foldl_cons, add_str_eq]
    by_cases hg : (ctx.has_pushed_down && !ctx.projected_names.contains nm) = true
    · rw [if_pos hg]
      apply ih
      · unfold namesSync at h1 ⊢
        simp only [List.map_append, List.map_cons, List.map_nil]
        rw [map_nameOf_add _ _ _ h2, column_node_to_name_add_self, h1]
      · intro n hn
        simp only [Arena.add, Arena.size, List.length_append, List.length_cons,
          List.length_nil]
        rcases List.mem_append.mp hn with hh | hh
        · exact Nat.lt_succ_of_lt (h2 n hh)
        · rw [List.mem_singleton.mp hh]
          exact Nat.lt_succ_self _
    · rw [if_neg hg]
      exact ih ctx ar h1 h2

/-! ### Count-star synthesis -/

theorem countStarChoice_eq (schema : Schema) (m : Nat) (hm : schema.len = m + 2) :
    (((schema.entries.drop 1).find? (fun p => p.2.cheap)).getD
      ((schema.get_at_index (m + 1)).getD ("", default))).1 =
      countStarChoice schema := by
  unfold countStarChoice
  cases hf : (schema.entries.drop 1).find? (fun p => p.2.cheap) with
  | some p => rfl
  | none =>
    rcases hg : schema.entries.get? (m + 1) with _ | e
    · exfalso
      rw [List.get?_eq_none] at hg
      have hlen : schema.len = schema.entries.length := rfl
      omega
    · rw [Schema.get_at_index, hg, List.getLast?_eq_get?]
      rw [show schema.entries.length - 1 = schema.len - 1 from rfl, hm]
      rw [show m + 2 - 1 = m + 1 from rfl, hg]
      rfl

theorem process_count_star_len0 (ctx : ProjectionContext) (schema : Schema)
    (ar : Arena AExpr) (hlen : schema.len = 0) :
    ctx.process_count_star_at_scan schema ar = (ctx, ar) := by
  unfold ProjectionContext.process_count_star_at_scan
  rw [hlen]
  by_cases h : ctx.acc_projections.isEmpty = true <;> simp [h]

theorem process_count_star_nonempty (ctx : ProjectionContext) (schema : Schema)
    (ar : Arena AExpr) (hacc : ctx.acc_projections ≠ []) :
    ctx.process_count_star_at_scan schema ar = (ctx, ar) := by
  unfold ProjectionContext.process_count_star_at_scan
  rw [if_neg]
  rw [List.isEmpty_iff]
  exact hacc

theorem process_count_star_shape (ctx : ProjectionContext) (schema : Schema)
    (ar : Arena AExpr) (hacc : ctx.acc_projections = [])
    (hn : ctx.projected_names = []) (n : Nat) (hlen : schema.len = n + 1) :
    ∃ nm, ctx.process_count_star_at_scan schema ar =
      ({ ctx with acc_projections := [ar.size], projected_names := [nm] },
       (ar.add (.column nm)).1) := by
  unfold ProjectionContext.process_count_star_at_scan
  rw [hlen, hacc, hn]
  refine ⟨(if n = 0 then (schema.get_at_index 0).getD ("", default)
      else ((schema.entries.drop 1).find? (fun p => p.2.cheap)).getD
        ((schema.get_at_index n).getD ("", default))).1, ?_⟩
  simp [insertName, Arena.add, Arena.size]

theorem process_count_star_empty (ctx : ProjectionContext) (schema : Schema)
    (ar : Arena AExpr) (m : Nat) (hm : schema.len = m + 2)
    (hacc : ctx.acc_projections = []) (hn : ctx.projected_names = []) :
    ctx.process_count_star_at_scan schema ar =
      ({ ctx with acc_projections := [ar.size],
                  projected_names := [countStarChoice schema] },
       (ar.add (.column (countStarChoice schema))).1) := by
  unfold ProjectionContext.process_count_star_at_scan
  rw [hacc, hn, hm]
  simp only [List.isEmpty_nil, if_true]
  rw [show m + 2 - 1 = m + 1 from rfl]
  rw [if_neg (Nat.succ_ne_zero m)]
  rw [countStarChoice_eq schema m hm]
  simp [insertName, Arena.add, Arena.size]

theorem process_count_star_sync (ctx : ProjectionContext) (schema : Schema)
    (ar : Arena AExpr) (hs : namesSync ar ctx) (hv : accValid ar ctx) :
    namesSync (ctx.process_count_star_at_scan schema ar).2
      (ctx.process_count_star_at_scan schema ar).1 ∧
    accValid (ctx.process_count_star_at_scan schema ar).2
      (ctx.process_count_star_at_scan schema ar).1 := by
  by_cases hacc : ctx.acc_projections = []
  · have hn : ctx.projected_names = [] := by
      rw [namesSync, hacc] at hs
      simpa using hs
    rcases hlen : schema.len with _ | n
    · rw [process_count_star_len0 ctx schema ar hlen]
      exact ⟨hs, hv⟩
    · rcases process_count_star_shape ctx schema ar hacc hn n hlen with ⟨nm, heq⟩
      rw [heq]
      constructor
      · unfold namesSync
        simp only [List.map_cons, List.map_nil, column_node_to_name_add_self]
      · intro x hx
        simp only [List.mem_singleton] at hx
        subst hx
        simp [Arena.add, Arena.size]
  · rw [process_count_star_nonempty ctx schema ar hacc]
    exact ⟨hs, hv⟩

/-! ### The per-rule context augmentations -/

theorem foldl_add_expr_mem (ar : Arena AExpr) (bys : List Node) :
    ∀ (st : List ColumnNode × List PlSmallStr) x,
      x ∈ (bys.foldl (fun (st : List ColumnNode × List PlSmallStr) node =>
          add_expr_to_accumulated ar node st.1 st.2) st).2 ↔
        x ∈ st.2 ∨ ∃ e ∈ bys, x ∈ leafNames ar e := by
  induction bys with
  | nil => simp
  | cons b bs ih =>
    intro st x
    rw [List.foldl_cons, ih, add_expr_mem]
    constructor
    · rintro ((h | h) | ⟨e, he, hx⟩)
      · exact Or.inl h
      · exact Or.inr ⟨b, List.mem_cons_self _ _, h⟩
      · exact Or.inr ⟨e, List.mem_cons_of_mem _ he, hx⟩
    · rintro (h | ⟨e, he, hx⟩)
      · exact Or.inl (Or.inl h)
      · rcases List.mem_cons.mp he with rfl | he'
        · exact Or.inl (Or.inr hx)
        · exact Or.inr ⟨e, he', hx⟩

theorem foldl_add_expr_sync (ar : Arena AExpr) (bys : List Node) :
    ∀ st, pairSync ar st →
      pairSync ar (bys.foldl (fun (st : List ColumnNode × List PlSmallStr) node =>
        add_expr_to_accumulated ar node st.1 st.2) st) := by
  induction bys with
  | nil => exact fun st h => h
  | cons b bs ih =>
    intro st h
    rw [List.foldl_cons]
    exact ih _ (add_expr_sync ar b st.1 st.2 h)

theorem split_names_foldl (ar : Arena AExpr) :
    ∀ (l : List ColumnNode) (ns : List PlSmallStr),
      (ns ++ l.map (column_node_to_name ar)).Nodup →
      l.foldl (fun ns p => (insertName ns (column_node_to_name ar p)).1) ns =
        ns ++ l.map (column_node_to_name ar) := by
  intro l
  induction l with
  | nil => intro ns _; simp
  | cons p l ih =>
    intro ns hnd
    rw [List.foldl_cons]
    have hnotin : column_node_to_name ar p ∉ ns := by
      intro hmem
      rcases List.nodup_append.mp hnd with ⟨_, _, hdisj⟩
      exact hdisj hmem (by simp)
    have hins : (insertName ns (column_node_to_name ar p)).1 =
        ns ++ [column_node_to_name ar p] := by
      unfold insertName
      rw [if_neg]
      intro hc
      exact hnotin ((contains_eq_mem _ _).mp hc)
    rw [hins, ih (ns ++ [column_node_to_name ar p]) (by simpa using hnd)]
    simp

theorem split_acc_projections_sync (ar : Arena AExpr) (acc : List ColumnNode)
    (dschema : Schema) (ex : Bool)
    (hnd : (acc.map (column_node_to_name ar)).Nodup) :
    (split_acc_projections acc dschema ar ex).2.2 =
      (split_acc_projections acc dschema ar ex).1.map (column_node_to_name ar) := by
  unfold split_acc_projections
  by_cases h : (!ex && dschema.len == acc.length) = true
  · rw [if_pos h]
    rfl
  · rw [if_neg h]
    have hpart : acc.partition (fun e => check_input_column_node ar e dschema) =
        (acc.filter (fun e => check_input_column_node ar e dschema),
         acc.filter (fun e => !check_input_column_node ar e dschema)) :=
      List.partition_eq_filter_filter _ _
    rw [hpart]
    have hnd1 : ((acc.filter (fun e => check_input_column_node ar e dschema)).map
        (column_node_to_name ar)).Nodup :=
      hnd.sublist (List.Sublist.map _ (List.filter_sublist acc))
    have := split_names_foldl ar
      (acc.filter (fun e => check_input_column_node ar e dschema)) [] (by simpa using hnd1)
    simpa using this

/-! ### Claim theorems -/

/-- C2 (counterexample): in the anonymous-scan count-star branch of the Scan
arm of `push_down`, a column reference is appended to `acc_projections`
without inserting its name into `projected_names` — immediately afterwards
the context has one accumulated column but an empty name set, so the two are
not always updated together and their sizes differ. -/
theorem projected_names_sync_counterexample :
    ∃ r, processScan true 0
        ⟨⟨[("a", ⟨false, false, false, false⟩), ("b", ⟨false, true, false, false⟩)]⟩,
         some (Sum.inl ⟨[("a", ⟨false, false, false, false⟩),
           ("b", ⟨false, true, false, false⟩)]⟩)⟩
        0 (.anonymous true) none {} none {} ⟨[]⟩ = Except.ok r ∧
      r.2.1.acc_projections.length = 1 ∧ r.2.1.projected_names.length = 0 :=
  ⟨_, rfl, rfl, rfl⟩

/-- C2 (amended): for a context satisfying the pairing invariant (with valid
handles and duplicate-free names), the invariant means set-equality and
equal cardinality of `projected_names` and `acc_projections`, and every
accumulation path of the pass except the anonymous-scan count-star branch
preserves it: `add_expr_to_accumulated`, `add_str_to_accumulated`,
`process_count_star_at_scan`, the Sort/Filter/Distinct augmentations, and
`split_acc_projections`'s pushed part. -/
theorem projected_names_sync_amended (ar : Arena AExpr) (ctx : ProjectionContext)
    (e : Node) (nm : PlSmallStr) (bys : List Node) (ss : List PlSmallStr)
    (ischema dschema : Schema) (ex : Bool)
    (hs : namesSync ar ctx) (hv : accValid ar ctx)
    (hnd : (ctx.acc_projections.map (column_node_to_name ar)).Nodup) :
    ((∀ x, x ∈ ctx.projected_names ↔
        x ∈ ctx.acc_projections.map (column_node_to_name ar)) ∧
      ctx.projected_names.length = ctx.acc_projections.length) ∧
    pairSync ar (add_expr_to_accumulated ar e ctx.acc_projections ctx.projected_names) ∧
    namesSync (add_str_to_accumulated nm ctx ar).2 (add_str_to_accumulated nm ctx ar).1 ∧
    namesSync (ctx.process_count_star_at_scan ischema ar).2
      (ctx.process_count_star_at_scan ischema ar).1 ∧
    namesSync ar (sortCtx ctx bys ar) ∧
    namesSync ar (filterCtx ctx e ar) ∧
    namesSync (distinctCtx ctx (some ss) ischema ar).2
      ((distinctCtx ctx (some ss) ischema ar).1) ∧
    namesSync (distinctCtx ctx none ischema ar).2
      ((distinctCtx ctx none ischema ar).1) ∧
    (split_acc_projections ctx.acc_projections dschema ar ex).2.2 =
      (split_acc_projections ctx.acc_projections dschema ar ex).1.map
        (column_node_to_name ar) := by
  have hstr : ∀ (L : List PlSmallStr), namesSync ((L.foldl (fun st n => add_str_to_accumulated n st.1 st.2)
        (ctx, ar)).2) ((L.foldl (fun st n => add_str_to_accumulated n st.1 st.2) (ctx, ar)).1) :=
    fun L => (foldl_add_str_sync L ctx ar hs hv).1
  refine ⟨⟨fun x => by rw [hs], by rw [hs, List.length_map]⟩,
    add_expr_sync ar e _ _ hs, ?_, (process_count_star_sync ctx ischema ar hs hv).1,
    ?_, ?_, ?_, ?_, split_acc_projections_sync ar ctx.acc_projections dschema ex hnd⟩
  · have := hstr [nm]
    simpa using this
  · unfold sortCtx
    by_cases h : ctx.has_pushed_down = true
    · rw [if_pos h]
      exact foldl_add_expr_sync ar bys (ctx.acc_projections, ctx.projected_names) hs
    · rw [if_neg h]
      exact hs
  · unfold filterCtx
    by_cases h : ctx.has_pushed_down = true
    · rw [if_pos h]
      exact add_expr_sync ar e _ _ hs
    · rw [if_neg h]
      exact hs
  · unfold distinctCtx
    by_cases h : ctx.has_pushed_down = true
    · rw [if_pos h]
      exact hstr ss
    · rw [if_neg h]
      exact hs
  · unfold distinctCtx
    by_cases h : ctx.has_pushed_down = true
    · rw [if_pos h]
      exact hstr ischema.iter_names
    · rw [if_neg h]
      exact hs

/-- Witness for the amended C2 theorem at a concrete context and arena. -/
theorem projected_names_sync_amended_witness :
    namesSync ⟨[AExpr.column "a"]⟩
      (sortCtx ⟨[0], ["a"], {}⟩ [0] ⟨[AExpr.column "a"]⟩) ∧
    (split_acc_projections [0] ⟨[("a", ⟨false, false, false, false⟩),
        ("b", ⟨false, false, false, false⟩)]⟩ ⟨[AExpr.column "a"]⟩ false).2.2 =
      (split_acc_projections [0] ⟨[("a", ⟨false, false, false, false⟩),
        ("b", ⟨false, false, false, false⟩)]⟩ ⟨[AExpr.column "a"]⟩ false).1.map
        (column_node_to_name ⟨[AExpr.column "a"]⟩) := by
  have h := projected_names_sync_amended ⟨[AExpr.column "a"]⟩ ⟨[0], ["a"], {}⟩
    0 "b" [0] ["a"] ⟨[]⟩
    ⟨[("a", ⟨false, false, false, false⟩), ("b", ⟨false, false, false, false⟩)]⟩ false
    (by rfl) (by intro n hn; simp at hn; subst hn; decide) (by decide)
  exact ⟨h.2.2.2.2.1, h.2.2.2.2.2.2.2.2⟩

/-- C3: for a schema with at least two columns and a context whose
accumulation is empty (with its name set correspondingly empty),
`process_count_star_at_scan` appends exactly one column reference — of the
first column at position ≥ 1 whose dtype is null, primitive-numeric, boolean
or temporal, else the last column — and its name to `projected_names`; with
a non-empty accumulation it changes nothing. -/
theorem count_star_synthesis (ctx : ProjectionContext) (schema : Schema)
    (ar : Arena AExpr) (h2 : 2 ≤ schema.len) (hn : ctx.projected_names = []) :
    (ctx.acc_projections = [] →
      ctx.process_count_star_at_scan schema ar =
        ({ ctx with acc_projections := [ar.size],
                    projected_names := [countStarChoice schema] },
         (ar.add (.column (countStarChoice schema))).1) ∧
      ((ar.add (.column (countStarChoice schema))).1).get? ar.size =
        some (.column (countStarChoice schema))) ∧
    (ctx.acc_projections ≠ [] →
      ctx.process_count_star_at_scan schema ar = (ctx, ar)) := by
  obtain ⟨m, hm⟩ : ∃ m, schema.len = m + 2 := ⟨schema.len - 2, by omega⟩
  exact ⟨fun hacc => ⟨process_count_star_empty ctx schema ar m hm hacc hn,
      Arena.get?_add_self ar _⟩,
    fun hacc => process_count_star_nonempty ctx schema ar hacc⟩

/-- Witness for C3: over `(a: str, b: str, c: i64)` the synthesized column is
`c`, the first cheap-typed column at position ≥ 1. -/
theorem count_star_synthesis_witness :
    (ProjectionContext.process_count_star_at_scan {}
      ⟨[("a", ⟨false, false, false, false⟩), ("b", ⟨false, false, false, false⟩),
        ("c", ⟨false, true, false, false⟩)]⟩ ⟨[]⟩).1.projected_names = ["c"] := by
  have h := count_star_synthesis {}
    ⟨[("a", ⟨false, false, false, false⟩), ("b", ⟨false, false, false, false⟩),
      ("c", ⟨false, true, false, false⟩)]⟩ ⟨[]⟩ (by decide) rfl
  rw [(h.1 rfl).1]
  rfl

/-- C4: the Sort, Filter and Distinct rules force their dependency columns
into the accumulated set exactly when pushdown is active
(`has_pushed_down`): Sort adds the leaf columns of its sort keys, Filter its
predicate's leaf columns, Distinct its subset (or, with no subset, every
column of its input schema); when pushdown is not active none of them
changes the context. -/
theorem dependency_columns_iff_pushdown (ar : Arena AExpr) (ctx : ProjectionContext)
    (bys : List Node) (pred : Node) (ss : List PlSmallStr) (ischema : Schema) :
    (ctx.has_pushed_down = true →
      (∀ x, x ∈ (sortCtx ctx bys ar).projected_names ↔
        x ∈ ctx.projected_names ∨ ∃ e ∈ bys, x ∈ leafNames ar e) ∧
      (∀ x, x ∈ (filterCtx ctx pred ar).projected_names ↔
        x ∈ ctx.projected_names ∨ x ∈ leafNames ar pred) ∧
      (∀ x, x ∈ ((distinctCtx ctx (some ss) ischema ar).1).projected_names ↔
        x ∈ ctx.projected_names ∨ x ∈ ss) ∧
      (∀ x, x ∈ ((distinctCtx ctx none ischema ar).1).projected_names ↔
        x ∈ ctx.projected_names ∨ x ∈ ischema.iter_names)) ∧
    (ctx.has_pushed_down = false →
      sortCtx ctx bys ar = ctx ∧
      filterCtx ctx pred ar = ctx ∧
      distinctCtx ctx (some ss) ischema ar = (ctx, ar) ∧
      distinctCtx ctx none ischema ar = (ctx, ar)) := by
  constructor
  · intro h
    refine ⟨fun x => ?_, fun x => ?_, fun x => ?_, fun x => ?_⟩
    · unfold sortCtx
      rw [if_pos h]
      exact foldl_add_expr_mem ar bys (ctx.acc_projections, ctx.projected_names) x
    · unfold filterCtx
      rw [if_pos h]
      exact add_expr_mem ar pred ctx.acc_projections ctx.projected_names x
    · unfold distinctCtx
      rw [if_pos h]
      exact (foldl_add_str_names ss ctx ar h).2 x
    · unfold distinctCtx
      rw [if_pos h]
      exact (foldl_add_str_names ischema.iter_names ctx ar h).2 x
  · intro h
    have h' : ¬ ctx.has_pushed_down = true := by rw [h]; exact Bool.false_ne_true
    exact ⟨by unfold sortCtx; rw [if_neg h'],
      by unfold filterCtx; rw [if_neg h'],
      by unfold distinctCtx; rw [if_neg h'],
      by unfold distinctCtx; rw [if_neg h']⟩

/-- Witness for C4: with pushdown active the sort-key leaf column `b` is
added; with an inactive context the Sort rule changes nothing. -/
theorem dependency_columns_iff_pushdown_witness :
    "b" ∈ (sortCtx ⟨[0], ["a"], {}⟩ [1] ⟨[.column "a", .column "b"]⟩).projected_names ∧
    sortCtx ⟨[], [], {}⟩ [1] ⟨[.column "a", .column "b"]⟩ = ⟨[], [], {}⟩ := by
  have h1 := dependency_columns_iff_pushdown ⟨[.column "a", .column "b"]⟩
    ⟨[0], ["a"], {}⟩ [1] 0 [] ⟨[]⟩
  have h0 := dependency_columns_iff_pushdown ⟨[.column "a", .column "b"]⟩
    ⟨[], [], {}⟩ [1] 0 [] ⟨[]⟩
  refine ⟨((h1.1 (by decide)).1 "b").mpr (Or.inr ⟨1, by decide, by decide⟩),
    (h0.2 (by decide)).1⟩

/-- C5: `join_push_down` appends the candidate column to the left pushdown
list exactly when its name is in the left schema and not yet recorded in
`names_left`, independently to the right list under the symmetric
condition (so a name present in both schemas and recorded on neither side is
pushed to both); it returns `pushed_at_least_one` iff it was appended on
some side and `already_projected` iff the name was recorded on some side
before the call. -/
theorem join_push_down_routing (schema_left schema_right : Schema)
    (proj : ColumnNode) (st : JoinPushState) (ar : Arena AExpr) (nm : PlSmallStr)
    (hcol : ar.get? proj = some (.column nm)) :
    (join_push_down schema_left schema_right proj st ar).1.pushdown_left =
      st.pushdown_left ++
        (if schema_left.contains nm && !st.names_left.contains nm then [proj] else []) ∧
    (join_push_down schema_left schema_right proj st ar).1.names_left =
      st.names_left ++
        (if schema_left.contains nm && !st.names_left.contains nm then [nm] else []) ∧
    (join_push_down schema_left schema_right proj st ar).1.pushdown_right =
      st.pushdown_right ++
        (if schema_right.contains nm && !st.names_right.contains nm then [proj] else []) ∧
    (join_push_down schema_left schema_right proj st ar).1.names_right =
      st.names_right ++
        (if schema_right.contains nm && !st.names_right.contains nm then [nm] else []) ∧
    (join_push_down schema_left schema_right proj st ar).2.1 =
      (schema_left.contains nm && !st.names_left.contains nm ||
       (schema_right.contains nm && !st.names_right.contains nm)) ∧
    (join_push_down schema_left schema_right proj st ar).2.2 =
      (st.names_left.contains nm || st.names_right.contains nm) := by
  have hname : column_node_to_name ar proj = nm := by
    unfold column_node_to_name
    rw [hcol]
  have hl : check_input_column_node ar proj schema_left = schema_left.contains nm := by
    unfold check_input_column_node
    rw [hcol]
  have hr : check_input_column_node ar proj schema_right = schema_right.contains nm := by
    unfold check_input_column_node
    rw [hcol]
  by_cases hL : schema_left.contains nm = true <;>
    by_cases hil : nm ∈ st.names_left <;>
    by_cases hR : schema_right.contains nm = true <;>
    by_cases hir : nm ∈ st.names_right <;>
    simp [join_push_down, hname, hl, hr, hL, hil, hir, hR,
      contains_eq_mem st.names_left nm, contains_eq_mem st.names_right nm]

/-- Witness for C5: a column present in both schemas and recorded on neither
side is pushed to both sides. -/
theorem join_push_down_routing_witness :
    (join_push_down ⟨[("id", ⟨false, true, false, false⟩)]⟩
        ⟨[("id", ⟨false, true, false, false⟩)]⟩ 0 {} ⟨[.column "id"]⟩).1.pushdown_left
      = [0] ∧
    (join_push_down ⟨[("id", ⟨false, true, false, false⟩)]⟩
        ⟨[("id", ⟨false, true, false, false⟩)]⟩ 0 {} ⟨[.column "id"]⟩).1.pushdown_right
      = [0] := by
  have h := join_push_down_routing ⟨[("id", ⟨false, true, false, false⟩)]⟩
    ⟨[("id", ⟨false, true, false, false⟩)]⟩ 0 {} ⟨[.column "id"]⟩ "id" rfl
  exact ⟨by rw [h.1]; rfl, by rw [h.2.2.1]; rfl⟩

/-- C8: the Cache arm of `push_down` never touches the cached subtree: with
an empty accumulation the Cache node is returned unchanged, and otherwise
the result is a simple projection of exactly the accumulated columns
wrapping the unmodified Cache node. -/
theorem cache_isolation (cs : Bool) (t : IR) (ctx : ProjectionContext)
    (ar : Arena AExpr) :
    pushDown cs (.cache t) ctx ar =
      .ok ((if ctx.acc_projections.isEmpty then .cache t
            else project_simple ctx.acc_projections ar (.cache t)), ar) ∧
    (project_simple ctx.acc_projections ar (.cache t)).get_inputs = [.cache t] ∧
    ((project_simple ctx.acc_projections ar (.cache t)).schema).iter_names =
      ctx.acc_projections.map (column_node_to_name ar) := by
  refine ⟨?_, rfl, ?_⟩
  · unfold pushDown
    by_cases h : ctx.acc_projections.isEmpty = true
    · rw [if_pos h, if_pos h]
      rfl
    · rw [if_neg h, if_neg h]
      rfl
  · simp [project_simple, IR.schema, Schema.iter_names]

theorem get_scan_columns_eq (acc : List ColumnNode)
    (ar : Arena AExpr) (ri : Option RowIndex) (fp : Option PlSmallStr) :
    get_scan_columns acc ar ri fp none =
      if acc.isEmpty then none
      else some (acc.filterMap (fun node =>
        if isVirtualName ri fp (column_node_to_name ar node) then none
        else some (column_node_to_name ar node))) := by
  unfold get_scan_columns
  by_cases h : acc.isEmpty = true
  · rw [if_pos h, if_pos h]
  · rw [if_neg h, if_neg h]
    dsimp only
    congr 1
    apply List.filterMap_congr
    intro node _
    rcases ri with _ | r <;> rcases fp with _ | f
    · rfl
    · cases hf : (f == column_node_to_name ar node) <;> simp [isVirtualName, hf]
    · cases hri : (r.name == column_node_to_name ar node) <;>
        simp [isVirtualName, hri]
    · cases hri : (r.name == column_node_to_name ar node) <;>
        cases hf : (f == column_node_to_name ar node) <;>
        simp [isVirtualName, hri, hf]

/-- C10: `get_scan_columns` is `none` exactly when the accumulation is
empty; otherwise it returns exactly the accumulated names that are neither
the row-index nor the file-path virtual column — in particular `some []`
(zero physical columns), never `none`, when every accumulated column is
virtual. -/
theorem get_scan_columns_characterization (acc : List ColumnNode)
    (ar : Arena AExpr) (ri : Option RowIndex) (fp : Option PlSmallStr) :
    (get_scan_columns acc ar ri fp none =
      if acc.isEmpty then none
      else some (acc.filterMap (fun node =>
        if isVirtualName ri fp (column_node_to_name ar node) then none
        else some (column_node_to_name ar node)))) ∧
    (get_scan_columns acc ar ri fp none = none ↔ acc = []) ∧
    (acc ≠ [] →
      (∀ node ∈ acc, isVirtualName ri fp (column_node_to_name ar node) = true) →
      get_scan_columns acc ar ri fp none = some []) := by
  have hmain := get_scan_columns_eq acc ar ri fp
  refine ⟨hmain, ?_, ?_⟩
  · rw [hmain]
    by_cases h : acc.isEmpty = true
    · rw [if_pos h]
      simp [List.isEmpty_iff.mp h]
    · rw [if_neg h]
      constructor
      · intro hc
        exact absurd hc (by simp)
      · intro hc
        exact absurd (List.isEmpty_iff.mpr hc) h
  · intro hne hall
    rw [hmain, if_neg (fun hc => hne (List.isEmpty_iff.mp hc))]
    congr 1
    apply List.filterMap_eq_nil.mpr
    intro node hnode
    rw [if_pos (hall node hnode)]

/-- Witness for C10: both accumulated columns name virtual columns, so the
scan projection is `some []`, not `none`. -/
theorem get_scan_columns_characterization_witness :
    get_scan_columns [0, 1] ⟨[.column "ri", .column "path"]⟩ (some ⟨"ri", 0⟩)
      (some "path") none = some [] := by
  have h := get_scan_columns_characterization [0, 1] ⟨[.column "ri", .column "path"]⟩
    (some ⟨"ri", 0⟩) (some "path")
  exact h.2.2 (by decide) (by decide)

theorem exc_bind_ok {α β : Type} (a : α) (f : α → Except PError β) :
    (Except.ok a >>= f) = f a := rfl

theorem exc_bind_error {α β : Type} (e : PError) (f : α → Except PError β) :
    ((Except.error e : Except PError α) >>= f) = Except.error e := rfl

theorem exc_map_ok {α β : Type} (a : α) (f : α → β) :
    (Except.ok a : Except PError α).map f = Except.ok (f a) := rfl

theorem exc_map_error {α β : Type} (e : PError) (f : α → β) :
    (Except.error e : Except PError α).map f = Except.error e := rfl

theorem exc_pure_bind {α β : Type} (a : α) (f : α → Except PError β) :
    ((pure a : Except PError α) >>= f) = f a := rfl

theorem exc_pure_eq {α : Type} (a : α) :
    (pure a : Except PError α) = Except.ok a := rfl

theorem foldlM_children_eq (cs : Bool) (inner : ProjectionCopyState) :
    ∀ (is : List IR) (acc0 : List IR) (ar : Arena AExpr),
      (is.foldlM (fun (st : List IR × Arena AExpr) node => do
          let c := ProjectionContext.new [] [] inner
          let (alp, ar') ← pushDown cs node c st.2
          return (st.1 ++ [alp], ar')) (acc0, ar)) =
        (mapPushDownEmpty cs inner is ar).map (fun r => (acc0 ++ r.1, r.2)) := by
  intro is
  induction is with
  | nil =>
    intro acc0 ar
    simp only [List.foldlM_nil, mapPushDownEmpty, exc_map_ok, List.append_nil]
    rfl
  | cons i is ih =>
    intro acc0 ar
    rw [List.foldlM_cons]
    rcases hp : pushDown cs i (ProjectionContext.new [] [] inner) ar with e | p
    · simp only [mapPushDownEmpty, hp, exc_bind_error, exc_map_error]
    · obtain ⟨i', ar'⟩ := p
      dsimp only
      rw [hp, exc_bind_ok]
      dsimp only
      rw [exc_pure_bind]
      refine Eq.trans (ih (acc0 ++ [i']) ar') ?_
      simp only [mapPushDownEmpty, hp, exc_bind_ok]
      rcases hq : mapPushDownEmpty cs inner is ar' with e' | q
      · simp only [exc_map_error, exc_bind_error]
      · obtain ⟨is', ar''⟩ := q
        simp only [exc_map_ok, exc_bind_ok, exc_pure_bind, exc_pure_eq]
        simp

/-- C7: `no_pushdown_restart_opt` rewrites every child with a fresh empty
context (only the copied flags survive), and wraps the rebuilt node in an
explicit simple projection of exactly the accumulated columns when the
accumulation is non-empty, returning it unwrapped otherwise. -/
theorem no_pushdown_restart_spec (cs : Bool) (lp : IR) (ctx : ProjectionContext)
    (ar : Arena AExpr) :
    no_pushdown_restart_opt cs lp ctx ar =
      (mapPushDownEmpty cs ctx.inner lp.get_inputs ar).map
        (fun r => ((if ctx.acc_projections.isEmpty then lp.with_inputs r.1
                    else project_simple ctx.acc_projections r.2 (lp.with_inputs r.1)),
                   r.2)) := by
  unfold no_pushdown_restart_opt
  rw [foldlM_children_eq]
  rcases hq : mapPushDownEmpty cs ctx.inner lp.get_inputs ar with e | q
  · simp [Except.map]
  · simp only [Except.map, Except.bind, Except.pure]
    unfold finish_node_simple_projection
    by_cases h : ctx.acc_projections.isEmpty = true
    · rw [if_pos h]
      simp [h]
    · rw [if_neg h]
      simp [h]

/-! ### Lemmas for `update_scan_schema` -/

theorem collectFullCols_isOk_iff (ar : Arena AExpr) (schema : Schema) :
    ∀ (acc : List ColumnNode),
      (collectFullCols ar schema acc).isOk = true ↔
        ∀ n ∈ acc, schema.contains (column_node_to_name ar n) = true := by
  intro acc
  induction acc with
  | nil => simp [collectFullCols, Except.isOk, Except.toBool]
  | cons node rest ih =>
    rcases hg : schema.try_get_full (column_node_to_name ar node) with _ | it
    · have hcon : schema.contains (column_node_to_name ar node) = false := by
        rw [← Schema.try_get_full_isSome, hg]
        rfl
      simp only [collectFullCols, hg]
      constructor
      · intro h
        simp [Except.isOk, Except.toBool] at h
      · intro h
        rw [h node (List.mem_cons_self _ _)] at hcon
        simp at hcon
    · have hcon : schema.contains (column_node_to_name ar node) = true := by
        rw [← Schema.try_get_full_isSome, hg]
        rfl
      simp only [collectFullCols, hg]
      rcases hr : collectFullCols ar schema rest with e | tail
      · rw [exc_bind_error]
        rw [hr] at ih
        constructor
        · intro h
          simp [Except.isOk, Except.toBool] at h
        · intro h
          exfalso
          have : (Except.error e : Except PError _).isOk = true :=
            ih.mpr (fun n hn => h n (List.mem_cons_of_mem _ hn))
          simp [Except.isOk, Except.toBool] at this
      · rw [exc_bind_ok, exc_pure_eq]
        rw [hr] at ih
        simp only [Except.isOk, Except.toBool] at ih ⊢
        constructor
        · intro _ n hn
          rcases List.mem_cons.mp hn with rfl | hn'
          · exact hcon
          · exact ih.mp (by trivial) n hn'
        · intro _
          trivial

theorem collectFullCols_names (ar : Arena AExpr) (schema : Schema) :
    ∀ (acc : List ColumnNode) (items : List (Nat × PlSmallStr × DataType)),
      collectFullCols ar schema acc = .ok items →
      items.map (fun it => it.2.1) = acc.map (column_node_to_name ar) := by
  intro acc
  induction acc with
  | nil =>
    intro items h
    simp only [collectFullCols] at h
    cases h
    rfl
  | cons node rest ih =>
    intro items h
    rcases hg : schema.try_get_full (column_node_to_name ar node) with _ | it
    · simp only [collectFullCols, hg] at h
      cases h
    · simp only [collectFullCols, hg] at h
      rcases hr : collectFullCols ar schema rest with e | tail
      · rw [hr, exc_bind_error] at h
        cases h
      · rw [hr, exc_bind_ok, exc_pure_eq] at h
        rcases h with ⟨⟩
        simp only [List.map_cons, ih tail hr, List.cons.injEq]
        exact ⟨(Schema.try_get_full_some schema _ it hg).1, trivial⟩

theorem Schema.contains_append (l1 l2 : List (PlSmallStr × DataType))
    (nm : PlSmallStr) :
    Schema.contains ⟨l1 ++ l2⟩ nm =
      (Schema.contains ⟨l1⟩ nm || Schema.contains ⟨l2⟩ nm) := by
  simp [Schema.contains, List.any_append]

theorem foldl_with_column_fresh :
    ∀ (items : List (Nat × PlSmallStr × DataType)) (s : Schema),
      (∀ it ∈ items, s.contains it.2.1 = false) →
      (items.map (fun it => it.2.1)).Nodup →
      items.foldl (fun sch it => sch.with_column it.2.1 it.2.2) s =
        ⟨s.entries ++ items.map (fun it => (it.2.1, it.2.2))⟩ := by
  intro items
  induction items with
  | nil =>
    intro s _ _
    simp
  | cons it items ih =>
    intro s hfresh hnd
    rw [List.foldl_cons]
    have hw : s.with_column it.2.1 it.2.2 = ⟨s.entries ++ [(it.2.1, it.2.2)]⟩ := by
      unfold Schema.with_column
      rw [if_neg]
      rw [hfresh it (List.mem_cons_self _ _)]
      simp
    rw [hw]
    rw [ih ⟨s.entries ++ [(it.2.1, it.2.2)]⟩ ?_ (by simpa using hnd.of_cons)]
    · simp
    · intro it' hit'
      rw [Schema.contains_append]
      have h1 : Schema.contains s it'.2.1 = false :=
        hfresh it' (List.mem_cons_of_mem _ hit')
      have h2 : it'.2.1 ≠ it.2.1 := by
        rcases List.nodup_cons.mp hnd with ⟨hni, _⟩
        intro he
        exact hni (List.mem_map.mpr ⟨it', hit', he⟩)
      have h3 : Schema.contains ⟨[(it.2.1, it.2.2)]⟩ it'.2.1 = false := by
        simp only [Schema.contains, List.any_cons, List.any_nil, Bool.or_false,
          beq_iff_eq]
        exact decide_eq_false (fun he => h2 he.symm)
      rw [show Schema.contains ⟨s.entries⟩ it'.2.1 = false from h1, h3]
      rfl

theorem insertByPos_perm (x : Nat × PlSmallStr × DataType) :
    ∀ (l : List (Nat × PlSmallStr × DataType)), List.Perm (insertByPos x l) (x :: l) := by
  intro l
  induction l with
  | nil => rfl
  | cons y ys ih =>
    unfold insertByPos
    by_cases h : x.1 ≤ y.1
    · rw [if_pos h]
    · rw [if_neg h]
      exact ((ih.cons y).trans (List.Perm.swap x y ys))

theorem sortByPos_perm (l : List (Nat × PlSmallStr × DataType)) :
    List.Perm (sortByPos l) l := by
  induction l with
  | nil => rfl
  | cons x xs ih =>
    unfold sortByPos
    rw [List.foldr_cons]
    exact (insertByPos_perm x _).trans (ih.cons x)

theorem insertByPos_sorted (x : Nat × PlSmallStr × DataType)
    (l : List (Nat × PlSmallStr × DataType))
    (h : l.Sorted (fun a b => a.1 ≤ b.1)) :
    (insertByPos x l).Sorted (fun a b => a.1 ≤ b.1) := by
  induction l with
  | nil => simp [insertByPos]
  | cons y ys ih =>
    unfold insertByPos
    rcases List.sorted_cons.mp h with ⟨hy, hys⟩
    by_cases hle : x.1 ≤ y.1
    · rw [if_pos hle]
      refine List.sorted_cons.mpr ⟨?_, h⟩
      intro b hb
      rcases List.mem_cons.mp hb with rfl | hb'
      · exact hle
      · exact Nat.le_trans hle (hy b hb')
    · rw [if_neg hle]
      refine List.sorted_cons.mpr ⟨?_, ih hys⟩
      intro b hb
      have hb2 := (insertByPos_perm x ys).mem_iff.mp hb
      rcases List.mem_cons.mp hb2 with rfl | hb'
      · exact Nat.le_of_not_le hle
      · exact hy b hb'

theorem sortByPos_sorted (l : List (Nat × PlSmallStr × DataType)) :
    (sortByPos l).Sorted (fun a b => a.1 ≤ b.1) := by
  induction l with
  | nil => simp [sortByPos]
  | cons x xs ih =>
    unfold sortByPos
    rw [List.foldr_cons]
    exact insertByPos_sorted x _ ih

/-- C6: `update_scan_schema` returns an error exactly when some accumulated
column's name is absent from the source schema; on success the returned
schema pairs exactly the accumulated names with their dtypes from the source
schema, ordered by original source position when `sort_projections` is true
and in accumulation order otherwise. -/
theorem update_scan_schema_spec (acc : List ColumnNode) (ar : Arena AExpr)
    (schema : Schema) (sortp : Bool)
    (hnd : (acc.map (column_node_to_name ar)).Nodup) :
    ((update_scan_schema acc ar schema sortp).isOk = true ↔
      ∀ n ∈ acc, schema.contains (column_node_to_name ar n) = true) ∧
    (∀ items, collectFullCols ar schema acc = .ok items →
      update_scan_schema acc ar schema sortp =
        .ok ⟨(if sortp then sortByPos items else items).map
          (fun it => (it.2.1, it.2.2))⟩ ∧
      List.Perm (sortByPos items) items ∧
      (sortByPos items).Sorted (fun a b => a.1 ≤ b.1)) := by
  constructor
  · have hiso : (update_scan_schema acc ar schema sortp).isOk =
        (collectFullCols ar schema acc).isOk := by
      unfold update_scan_schema
      rcases hc : collectFullCols ar schema acc with e | items
      · rw [exc_bind_error]
        rfl
      · rw [exc_bind_ok]
        rfl
    rw [hiso, collectFullCols_isOk_iff]
  · intro items hc
    have hnames : items.map (fun it => it.2.1) = acc.map (column_node_to_name ar) :=
      collectFullCols_names ar schema acc items hc
    have hndItems : (items.map (fun it => it.2.1)).Nodup := by
      rw [hnames]
      exact hnd
    refine ⟨?_, sortByPos_perm items, sortByPos_sorted items⟩
    unfold update_scan_schema
    rw [hc, exc_bind_ok]
    have hfold : ∀ (l : List (Nat × PlSmallStr × DataType)),
        ((l.map (fun it => it.2.1)).Nodup) →
        l.foldl (fun (sch : Schema) it => sch.with_column it.2.1 it.2.2)
            (⟨[]⟩ : Schema) =
          (⟨l.map (fun it => (it.2.1, it.2.2))⟩ : Schema) := by
      intro l hl
      rw [foldl_with_column_fresh l ⟨[]⟩ (fun _ _ => rfl) hl]
      simp
    by_cases hs : sortp = true
    · rw [hs]
      simp only [if_true]
      have hnds : ((sortByPos items).map (fun it => it.2.1)).Nodup :=
        (((sortByPos_perm items).map (fun it => it.2.1)).nodup_iff).mpr hndItems
      exact congrArg Except.ok (hfold (sortByPos items) hnds)
    · rw [Bool.not_eq_true] at hs
      rw [hs]
      simp only [Bool.false_eq_true, if_false]
      exact congrArg Except.ok (hfold items hndItems)

/-- Witness for C6: requesting `c` then `a` from `(a, b, c)` with sorting
yields the schema `(a, c)` in original source order. -/
theorem update_scan_schema_spec_witness :
    update_scan_schema [0, 1] ⟨[.column "c", .column "a"]⟩
      ⟨[("a", ⟨false, false, false, false⟩), ("b", ⟨false, false, false, false⟩),
        ("c", ⟨false, true, false, false⟩)]⟩ true =
      .ok ⟨[("a", ⟨false, false, false, false⟩), ("c", ⟨false, true, false, false⟩)]⟩ := by
  have h := update_scan_schema_spec [0, 1] ⟨[.column "c", .column "a"]⟩
    ⟨[("a", ⟨false, false, false, false⟩), ("b", ⟨false, false, false, false⟩),
      ("c", ⟨false, true, false, false⟩)]⟩ true (by decide)
  have h2 := (h.2 [(2, "c", ⟨false, true, false, false⟩),
    (0, "a", ⟨false, false, false, false⟩)] rfl).1
  exact h2.trans rfl

/-! ### The pass on an unannotated plan, and the closure property -/

theorem scanCull_none (fi : FileInfo) (usa : UnifiedScanArgs) :
    scanCull fi usa none = (fi, usa) := by
  rcases usa with ⟨proj, ri, fp⟩
  rcases ri with _ | r <;> rcases fp with _ | f <;> rfl

theorem processScan_fresh_id (st : FileScanIR) (sources : Nat) (fi : FileInfo)
    (hive : Nat) (pred : Option Node) (ri : Option RowIndex)
    (fp : Option PlSmallStr) (ar : Arena AExpr) :
    processScan false sources fi hive st pred ⟨none, ri, fp⟩ none {} ar =
      .ok (.scan sources fi hive st pred ⟨none, ri, fp⟩ none, {}, ar) := by
  rcases ri with _ | r <;> rcases fp with _ | f <;>
    cases st with
    | anonymous allows => cases allows <;> rfl
    | ndjson => rfl
    | ipc => rfl
    | csv => rfl
    | parquet => rfl
    | pythonDataset => rfl

theorem pushDown_identity (ar : Arena AExpr) :
    ∀ (t : IR), fresh t = true → noSimpleProj t = true →
      pushDown false t {} ar = .ok (t, ar) := by
  intro t
  induction t with
  | dataframeScan df schema os =>
    intro _ _
    rfl
  | scan sources fi hive st pred usa os =>
    intro hf _
    rcases usa with ⟨proj, ri, fp⟩
    simp only [fresh, Bool.and_eq_true, Option.isNone_iff_eq_none] at hf
    rcases hf with ⟨hp, ho⟩
    subst hp
    subst ho
    simp only [pushDown]
    rw [processScan_fresh_id]
    rfl
  | sort i bys slice ih =>
    intro hf hn
    simp only [fresh] at hf
    simp only [noSimpleProj] at hn
    simp only [pushDown]
    rw [show sortCtx {} bys ar = {} from rfl, ih hf hn, exc_bind_ok]
    rfl
  | distinct i ss ih =>
    intro hf hn
    simp only [fresh] at hf
    simp only [noSimpleProj] at hn
    simp only [pushDown]
    rw [show distinctCtx {} ss i.schema ar = ({}, ar) from rfl, ih hf hn, exc_bind_ok]
    rfl
  | filter pred i ih =>
    intro hf hn
    simp only [fresh] at hf
    simp only [noSimpleProj] at hn
    simp only [pushDown]
    rw [show filterCtx {} pred ar = {} from rfl, ih hf hn, exc_bind_ok]
    rfl
  | cache i ih =>
    intro _ _
    rfl
  | mergeSorted l r k ihl ihr =>
    intro hf hn
    simp only [fresh, Bool.and_eq_true] at hf
    simp only [noSimpleProj, Bool.and_eq_true] at hn
    simp only [pushDown]
    rw [show (if ProjectionContext.has_pushed_down {} then
        add_str_to_accumulated k {} ar else ({}, ar)) = ({}, ar) from rfl]
    rw [ihl hf.1 hn.1, exc_bind_ok, ihr hf.2 hn.2, exc_bind_ok]
    rfl
  | simpleProjection cols i ih =>
    intro _ hn
    simp [noSimpleProj] at hn

theorem schemaContainsAll_iff (s : Schema) (req : List PlSmallStr) :
    schemaContainsAll s req = true ↔ ∀ nm ∈ req, s.contains nm = true := by
  simp [schemaContainsAll, List.all_eq_true]

theorem scansContain_of_schema (ar : Arena AExpr) :
    ∀ (t : IR) (req : List PlSmallStr), wf ar t = true →
      schemaContainsAll t.schema req = true → scansContain req t = true := by
  intro t
  induction t with
  | dataframeScan df schema os =>
    intro req _ hall
    exact hall
  | scan sources fi hive st pred usa os =>
    intro req _ hall
    exact hall
  | sort i bys slice ih =>
    intro req hwf hall
    simp only [wf, Bool.and_eq_true] at hwf
    exact ih req hwf.2 hall
  | distinct i ss ih =>
    intro req hwf hall
    simp only [wf, Bool.and_eq_true] at hwf
    exact ih req hwf.2 hall
  | filter pred i ih =>
    intro req hwf hall
    simp only [wf, Bool.and_eq_true] at hwf
    exact ih req hwf.2 hall
  | cache i ih =>
    intro req hwf hall
    exact ih req hwf hall
  | mergeSorted l r k ihl ihr =>
    intro req hwf hall
    simp only [wf, Bool.and_eq_true] at hwf
    obtain ⟨⟨⟨hbeq, _⟩, hwl⟩, hwr⟩ := hwf
    have hschema : l.schema = r.schema := by
      have := hbeq
      exact beq_iff_eq.mp this
    simp only [scansContain, Bool.and_eq_true]
    constructor
    · exact ihl req hwl hall
    · apply ihr req hwr
      rw [← hschema]
      exact hall
  | simpleProjection cols i ih =>
    intro req hwf hall
    simp only [wf, Bool.and_eq_true] at hwf
    apply ih req hwf.2
    rw [schemaContainsAll_iff] at hall ⊢
    intro nm hnm
    have hc : cols.contains nm = true := hall nm hnm
    have hmem : nm ∈ cols.iter_names := (Schema.contains_iff_mem_iter_names _ _).mp hc
    exact (schemaContainsAll_iff _ _).mp hwf.1 nm hmem

theorem closure_of_wf (ar : Arena AExpr) :
    ∀ (t : IR), wf ar t = true → closureOK ar t = true := by
  intro t
  induction t with
  | dataframeScan df schema os => intro _; rfl
  | scan sources fi hive st pred usa os => intro _; rfl
  | sort i bys slice ih =>
    intro hwf
    simp only [wf, Bool.and_eq_true, List.all_eq_true] at hwf
    simp only [closureOK, Bool.and_eq_true, List.all_eq_true]
    exact ⟨fun e he => scansContain_of_schema ar i _ hwf.2 (hwf.1 e he), ih hwf.2⟩
  | distinct i ss ih =>
    intro hwf
    simp only [wf, Bool.and_eq_true] at hwf
    simp only [closureOK, Bool.and_eq_true]
    exact ⟨scansContain_of_schema ar i _ hwf.2 hwf.1, ih hwf.2⟩
  | filter pred i ih =>
    intro hwf
    simp only [wf, Bool.and_eq_true] at hwf
    simp only [closureOK, Bool.and_eq_true]
    exact ⟨scansContain_of_schema ar i _ hwf.2 hwf.1, ih hwf.2⟩
  | cache i ih =>
    intro hwf
    exact ih hwf
  | mergeSorted l r k ihl ihr =>
    intro hwf
    simp only [wf, Bool.and_eq_true] at hwf
    obtain ⟨⟨⟨hbeq, hk⟩, hwl⟩, hwr⟩ := hwf
    have hschema : l.schema = r.schema := beq_iff_eq.mp hbeq
    have hkl : schemaContainsAll l.schema [k] = true := by
      rw [schemaContainsAll_iff]
      intro nm hnm
      rw [List.mem_singleton.mp hnm]
      exact hk
    simp only [closureOK, Bool.and_eq_true]
    refine ⟨⟨⟨scansContain_of_schema ar l _ hwl hkl, ?_⟩, ihl hwl⟩, ihr hwr⟩
    apply scansContain_of_schema ar r _ hwr
    rw [← hschema]
    exact hkl
  | simpleProjection cols i ih =>
    intro hwf
    simp only [wf, Bool.and_eq_true] at hwf
    simp only [closureOK, Bool.and_eq_true]
    refine ⟨?_, ih hwf.2⟩
    apply scansContain_of_schema ar i _ hwf.2
    rw [schemaContainsAll_iff] at hwf ⊢
    · intro nm hnm
      exact hwf.1 nm hnm

/-- C1: on a schema-valid, unannotated plan made of the embedded operators,
a successful non-count-star run of `optimize` leaves every scan able to
supply every column name transitively referenced by the operators above it:
the closure property holds of the output plan. -/
theorem closure_after_optimize (p : IR) (ar : Arena AExpr) (q : IR)
    (ar' : Arena AExpr) (hfresh : fresh p = true) (hns : noSimpleProj p = true)
    (hwf : wf ar p = true) (hopt : optimize false p ar = .ok (q, ar')) :
    closureOK ar' q = true := by
  rw [optimize, pushDown_identity ar p hfresh hns] at hopt
  cases hopt
  exact closure_of_wf ar p hwf

/-- Witness for C1: a filter over a fresh parquet scan; after the pass every
scan below the filter still contains the predicate's column. -/
theorem closure_after_optimize_witness :
    closureOK ⟨[.column "b"]⟩
      (.filter 0 (.scan 0 ⟨⟨[("a", ⟨false, false, false, false⟩),
        ("b", ⟨false, true, false, false⟩)]⟩, none⟩ 0 .parquet none ⟨none, none, none⟩
        none)) = true :=
  closure_after_optimize
    (.filter 0 (.scan 0 ⟨⟨[("a", ⟨false, false, false, false⟩),
      ("b", ⟨false, true, false, false⟩)]⟩, none⟩ 0 .parquet none ⟨none, none, none⟩
      none))
    ⟨[.column "b"]⟩ _ _ (by decide) (by decide) (by decide) (by rfl)

/-! ### Idempotence of the pass -/

theorem try_get_full_shift_remove (s : Schema) (m nm : PlSmallStr) (hne : nm ≠ m) :
    ((s.shift_remove m).try_get_full nm).map (fun it => (it.2.1, it.2.2)) =
      (s.try_get_full nm).map (fun it => (it.2.1, it.2.2)) := by
  rcases s with ⟨entries⟩
  induction entries with
  | nil => rfl
  | cons e es ih =>
    show ((Schema.shift_remove ⟨e :: es⟩ m).try_get_full nm).map _ = _
    by_cases hem : e.1 = m
    · have hfilter : Schema.shift_remove ⟨e :: es⟩ m = Schema.shift_remove ⟨es⟩ m := by
        simp [Schema.shift_remove, List.filter, hem]
      rw [hfilter, ih]
      have henm : (e.1 == nm) = false := by
        rw [beq_eq_false_iff_ne]
        rw [hem]
        exact fun h => hne h.symm
      show _ = (Schema.try_get_full_entries (e :: es) nm).map _
      rw [show Schema.try_get_full_entries (e :: es) nm =
          (Schema.try_get_full_entries es nm).map (fun it => (it.1 + 1, it.2)) by
        rw [Schema.try_get_full_entries, henm]
        simp]
      rw [show (Schema.try_get_full ⟨es⟩ nm) =
          Schema.try_get_full_entries es nm from rfl]
      rcases Schema.try_get_full_entries es nm with _ | it <;> rfl
    · have hfilter : Schema.shift_remove ⟨e :: es⟩ m =
          ⟨e :: (Schema.shift_remove ⟨es⟩ m).entries⟩ := by
        simp only [Schema.shift_remove, List.filter, bne]
        cases hbm : (e.1 == m) with
        | true => exact absurd (beq_iff_eq.mp hbm) hem
        | false => rfl
      rw [hfilter]
      by_cases henm : e.1 = nm
      · show (Schema.try_get_full_entries (e :: _) nm).map _ =
            (Schema.try_get_full_entries (e :: es) nm).map _
        rw [Schema.try_get_full_entries, Schema.try_get_full_entries]
        rw [if_pos (beq_iff_eq.mpr henm), if_pos (beq_iff_eq.mpr henm)]
      · show (Schema.try_get_full_entries (e :: _) nm).map _ =
            (Schema.try_get_full_entries (e :: es) nm).map _
        rw [Schema.try_get_full_entries, Schema.try_get_full_entries]
        rw [if_neg (fun h => henm (beq_iff_eq.mp h)),
          if_neg (fun h => henm (beq_iff_eq.mp h))]
        have := ih
        rw [show (Schema.shift_remove ⟨es⟩ m).try_get_full nm =
            Schema.try_get_full_entries (Schema.shift_remove ⟨es⟩ m).entries nm from rfl] at this
        rw [show (Schema.try_get_full ⟨es⟩ nm) =
            Schema.try_get_full_entries es nm from rfl] at this
        rcases h1 : Schema.try_get_full_entries (Schema.shift_remove ⟨es⟩ m).entries nm
          with _ | it1 <;>
          rcases h2 : Schema.try_get_full_entries es nm with _ | it2 <;>
          rw [h1, h2] at this <;> simp_all

theorem scanCull_virtual_none (fi : FileInfo) (p0 : Option (List PlSmallStr))
    (os : Option Schema) :
    scanCull fi ⟨p0, none, none⟩ os = (fi, ⟨p0, none, none⟩) := rfl

theorem scanCull_idem (fi : FileInfo) (usa : UnifiedScanArgs) (os : Option Schema) :
    scanCull (scanCull fi usa os).1 (scanCull fi usa os).2 os = scanCull fi usa os := by
  rcases usa with ⟨p0, ri, fp⟩
  rcases ri with _ | r <;> rcases fp with _ | f
  · rfl
  · unfold scanCull
    rcases os with _ | s
    · rfl
    · by_cases hc : (!s.contains f) = true <;> simp [hc]
  · unfold scanCull
    rcases os with _ | s
    · rfl
    · by_cases hc : (!s.contains r.name) = true <;> simp [hc]
  · unfold scanCull
    rcases os with _ | s
    · rfl
    · by_cases hc1 : (!s.contains r.name) = true <;>
        by_cases hc2 : (!s.contains f) = true <;> simp [hc1, hc2]

theorem update_scan_schema_single (ar : Arena AExpr) (node : ColumnNode)
    (schema : Schema) (sortp : Bool) :
    update_scan_schema [node] ar schema sortp =
      (match schema.try_get_full (column_node_to_name ar node) with
       | some it => .ok ⟨[(it.2.1, it.2.2)]⟩
       | none => .error (.columnNotFound (column_node_to_name ar node))) := by
  rcases hg : schema.try_get_full (column_node_to_name ar node) with _ | it
  · simp only [update_scan_schema, collectFullCols, hg]
    rfl
  · simp only [update_scan_schema, collectFullCols, hg]
    cases sortp <;> rfl

theorem get_scan_columns_single (ar : Arena AExpr) (node : ColumnNode)
    (ri : Option RowIndex) (fp : Option PlSmallStr) :
    get_scan_columns [node] ar ri fp none =
      some (if isVirtualName ri fp (column_node_to_name ar node) then []
            else [column_node_to_name ar node]) := by
  rw [get_scan_columns_eq]
  cases hv : isVirtualName ri fp (column_node_to_name ar node) <;>
    simp [List.filterMap, hv]

theorem scanStep2_single (fi : FileInfo) (st : FileScanIR)
    (p0 : Option (List PlSmallStr)) (ri : Option RowIndex)
    (fp : Option PlSmallStr) (node : ColumnNode) (ns : List PlSmallStr)
    (inr : ProjectionCopyState) (ar : Arena AExpr) :
    scanStep2 fi st ⟨p0, ri, fp⟩ ⟨[node], ns, inr⟩ ar =
      (match fi.schema.try_get_full (column_node_to_name ar node) with
       | some it =>
         .ok (⟨some (if isVirtualName ri fp (column_node_to_name ar node) then []
                     else [column_node_to_name ar node]), ri, fp⟩,
              some ⟨[(it.2.1, it.2.2)]⟩, ⟨[node], ns, inr⟩, ar)
       | none => .error (.columnNotFound (column_node_to_name ar node))) := by
  unfold scanStep2
  rw [show (⟨p0, ri, fp⟩ : UnifiedScanArgs).row_index = ri from rfl,
    show (⟨p0, ri, fp⟩ : UnifiedScanArgs).include_file_paths = fp from rfl]
  rw [show (⟨[node], ns, inr⟩ : ProjectionContext).acc_projections = [node] from rfl]
  rw [get_scan_columns_single]
  dsimp only
  rw [update_scan_schema_single]
  rcases hg : fi.schema.try_get_full (column_node_to_name ar node) with _ | it
  · rfl
  · rw [exc_bind_ok]
    dsimp only
    rcases fp with _ | f
    · rfl
    · cases hbf : (it.2.1 == f)
      · simp only [Schema.index_of, Schema.try_get_full_entries, hbf]
        rfl
      · simp only [Schema.index_of, Schema.try_get_full_entries, hbf]
        rfl

theorem scanLoop_noopt (cs : Bool) (fi : FileInfo) (st : FileScanIR)
    (usa : UnifiedScanArgs) (os : Option Schema) (ctx : ProjectionContext)
    (ar : Arena AExpr) (hdo : scanDoOptimization st = false) :
    scanLoop cs fi st usa os ctx ar = .ok (usa, os, ctx, ar) := by
  unfold scanLoop
  rw [hdo]
  rfl

theorem processScan_noopt (cs : Bool) (s : Nat) (fi : FileInfo) (hv : Nat)
    (st : FileScanIR) (pr : Option Node) (usa : UnifiedScanArgs)
    (os : Option Schema) (ctx : ProjectionContext) (ar : Arena AExpr)
    (hdo : scanDoOptimization st = false) :
    processScan cs s fi hv st pr usa os ctx ar =
      .ok (.scan s (scanCull fi usa os).1 hv st pr (scanCull fi usa os).2 os,
        ctx, ar) := by
  unfold processScan
  rw [scanLoop_noopt cs fi st usa os ctx ar hdo, exc_bind_ok]
  dsimp only
  rcases hcull : scanCull fi usa os with ⟨fi2, usa2⟩
  rfl

theorem scanLoop_false_opt (fi : FileInfo) (st : FileScanIR)
    (usa : UnifiedScanArgs) (os : Option Schema) (ctx : ProjectionContext)
    (ar : Arena AExpr) (hdo : scanDoOptimization st = true) :
    scanLoop false fi st usa os ctx ar = scanStep2 fi st usa ctx ar := by
  unfold scanLoop
  rw [hdo]
  rfl

theorem scanStep2_empty (fi : FileInfo) (st : FileScanIR)
    (p0 : Option (List PlSmallStr)) (ri : Option RowIndex)
    (fp : Option PlSmallStr) (ns : List PlSmallStr) (inr : ProjectionCopyState)
    (ar : Arena AExpr) :
    scanStep2 fi st ⟨p0, ri, fp⟩ ⟨[], ns, inr⟩ ar =
      .ok (⟨none, ri, fp⟩, none, ⟨[], ns, inr⟩, ar) := rfl

theorem processScan_false_opt (s : Nat) (fi : FileInfo) (hv : Nat)
    (st : FileScanIR) (pr : Option Node) (p0 : Option (List PlSmallStr))
    (ri : Option RowIndex) (fp : Option PlSmallStr) (os : Option Schema)
    (ns : List PlSmallStr) (inr : ProjectionCopyState) (ar : Arena AExpr)
    (hdo : scanDoOptimization st = true) :
    processScan false s fi hv st pr ⟨p0, ri, fp⟩ os ⟨[], ns, inr⟩ ar =
      .ok (.scan s fi hv st pr ⟨none, ri, fp⟩ none, ⟨[], ns, inr⟩, ar) := by
  unfold processScan
  rw [scanLoop_false_opt fi st ⟨p0, ri, fp⟩ os ⟨[], ns, inr⟩ ar hdo,
    scanStep2_empty, exc_bind_ok]
  dsimp only
  rw [show scanCull fi ⟨none, ri, fp⟩ none = (fi, ⟨none, ri, fp⟩) from
    scanCull_none fi ⟨none, ri, fp⟩]
  rfl

theorem scanLoop_countstar_nonanon (fi : FileInfo) (st : FileScanIR)
    (usa : UnifiedScanArgs) (os : Option Schema) (ctx : ProjectionContext)
    (ar : Arena AExpr)
    (hna : (match st with | .anonymous _ => false | _ => true) = true) :
    scanLoop true fi st usa os ctx ar =
      .ok ({ usa with projection := some [] }, some ⟨[]⟩, ctx, ar) := by
  cases st with
  | anonymous a => simp at hna
  | ndjson => rfl
  | ipc => rfl
  | csv => rfl
  | parquet => rfl
  | pythonDataset => rfl

theorem scanCull_empty_os (fi : FileInfo) (p0 : Option (List PlSmallStr))
    (ri : Option RowIndex) (fp : Option PlSmallStr) :
    (scanCull fi ⟨p0, ri, fp⟩ (some ⟨[]⟩)).2 = ⟨p0, none, none⟩ := by
  rcases ri with _ | r <;> rcases fp with _ | f <;> rfl

theorem scanCull_reader (fi : FileInfo) (usa : UnifiedScanArgs)
    (os : Option Schema) :
    (scanCull fi usa os).1.reader_schema = fi.reader_schema := by
  unfold scanCull
  rcases usa with ⟨p0, ri, fp⟩
  rcases ri with _ | r <;> rcases fp with _ | f <;> rcases os with _ | sch
  · rfl
  · rfl
  · rfl
  · by_cases hc : (!sch.contains f) = true <;> simp [hc]
  · rfl
  · by_cases hc : (!sch.contains r.name) = true <;> simp [hc]
  · rfl
  · by_cases hc1 : (!sch.contains r.name) = true <;>
      by_cases hc2 : (!sch.contains f) = true <;> simp [hc1, hc2]

theorem scanCull_projection (fi : FileInfo) (usa : UnifiedScanArgs)
    (os : Option Schema) :
    (scanCull fi usa os).2.projection = usa.projection := by
  unfold scanCull
  rcases usa with ⟨p0, ri, fp⟩
  rcases ri with _ | r <;> rcases fp with _ | f <;> rcases os with _ | sch
  · rfl
  · rfl
  · rfl
  · by_cases hc : (!sch.contains f) = true <;> simp [hc]
  · rfl
  · by_cases hc : (!sch.contains r.name) = true <;> simp [hc]
  · rfl
  · by_cases hc1 : (!sch.contains r.name) = true <;>
      by_cases hc2 : (!sch.contains f) = true <;> simp [hc1, hc2]

theorem scanLoop_anon (fi : FileInfo) (usa : UnifiedScanArgs)
    (os : Option Schema) (ctx : ProjectionContext) (ar : Arena AExpr) :
    scanLoop true fi (.anonymous true) usa os ctx ar =
      (match readerFirstName fi.reader_schema with
       | none => .ok ({ usa with projection := some [] }, some ⟨[]⟩, ctx, ar)
       | some nm =>
         scanStep2 fi (.anonymous true)
           ⟨some [nm], usa.row_index, usa.include_file_paths⟩
           ⟨ctx.acc_projections ++ [ar.size], ctx.projected_names, ctx.inner⟩
           (ar.add (.column nm)).1) := by
  unfold scanLoop
  rcases hrf : readerFirstName fi.reader_schema with _ | nm
  · rfl
  · rfl

theorem processScan_cs_nonanon (s : Nat) (fi : FileInfo) (hv : Nat)
    (st : FileScanIR) (pr : Option Node) (p0 : Option (List PlSmallStr))
    (ri : Option RowIndex) (fp : Option PlSmallStr) (os : Option Schema)
    (ar : Arena AExpr)
    (hna : (match st with | .anonymous _ => false | _ => true) = true) :
    processScan true s fi hv st pr ⟨p0, ri, fp⟩ os {} ar =
      .ok (.scan s (scanCull fi ⟨some [], ri, fp⟩ (some ⟨[]⟩)).1 hv st pr
        (scanCull fi ⟨some [], ri, fp⟩ (some ⟨[]⟩)).2 (some ⟨[]⟩), {}, ar) := by
  unfold processScan
  rw [scanLoop_countstar_nonanon fi st ⟨p0, ri, fp⟩ os {} ar hna, exc_bind_ok]
  dsimp only
  rcases hcull : scanCull fi ⟨some [], ri, fp⟩ (some ⟨[]⟩) with ⟨fi2, usa2⟩
  rfl

theorem processScan_anon_none (s : Nat) (fi : FileInfo) (hv : Nat)
    (pr : Option Node) (p0 : Option (List PlSmallStr)) (ri : Option RowIndex)
    (fp : Option PlSmallStr) (os : Option Schema) (ar : Arena AExpr)
    (hrf : readerFirstName fi.reader_schema = none) :
    processScan true s fi hv (.anonymous true) pr ⟨p0, ri, fp⟩ os {} ar =
      .ok (.scan s (scanCull fi ⟨some [], ri, fp⟩ (some ⟨[]⟩)).1 hv
        (.anonymous true) pr
        (scanCull fi ⟨some [], ri, fp⟩ (some ⟨[]⟩)).2 (some ⟨[]⟩), {}, ar) := by
  unfold processScan
  rw [scanLoop_anon fi ⟨p0, ri, fp⟩ os {} ar, hrf]
  dsimp only
  rw [exc_bind_ok]
  dsimp only
  rcases hcull : scanCull fi ⟨some [], ri, fp⟩ (some ⟨[]⟩) with ⟨fi2, usa2⟩
  rfl

theorem processScan_anon_some (s : Nat) (fi : FileInfo) (hv : Nat)
    (pr : Option Node) (p0 : Option (List PlSmallStr)) (ri : Option RowIndex)
    (fp : Option PlSmallStr) (os : Option Schema) (ar : Arena AExpr)
    (nm : PlSmallStr) (it : Nat × PlSmallStr × DataType)
    (hrf : readerFirstName fi.reader_schema = some nm)
    (hit : fi.schema.try_get_full nm = some it) :
    processScan true s fi hv (.anonymous true) pr ⟨p0, ri, fp⟩ os {} ar =
      .ok (.scan s
        (scanCull fi ⟨some (if isVirtualName ri fp nm then [] else [nm]), ri, fp⟩
          (some ⟨[(it.2.1, it.2.2)]⟩)).1 hv (.anonymous true) pr
        (scanCull fi ⟨some (if isVirtualName ri fp nm then [] else [nm]), ri, fp⟩
          (some ⟨[(it.2.1, it.2.2)]⟩)).2 (some ⟨[(it.2.1, it.2.2)]⟩),
        ⟨[ar.size], [], {}⟩, (ar.add (.column nm)).1) := by
  unfold processScan
  rw [scanLoop_anon fi ⟨p0, ri, fp⟩ os {} ar, hrf]
  dsimp only [List.nil_append]
  rw [scanStep2_single]
  rw [column_node_to_name_add_self, hit]
  dsimp only
  rw [exc_bind_ok]
  dsimp only
  rcases hcull : scanCull fi
      ⟨some (if isVirtualName ri fp nm then [] else [nm]), ri, fp⟩
      (some ⟨[(it.2.1, it.2.2)]⟩) with ⟨fi2, usa2⟩
  rfl

theorem processScan_anon_err (s : Nat) (fi : FileInfo) (hv : Nat)
    (pr : Option Node) (p0 : Option (List PlSmallStr)) (ri : Option RowIndex)
    (fp : Option PlSmallStr) (os : Option Schema) (ar : Arena AExpr)
    (nm : PlSmallStr)
    (hrf : readerFirstName fi.reader_schema = some nm)
    (hit : fi.schema.try_get_full nm = none) :
    processScan true s fi hv (.anonymous true) pr ⟨p0, ri, fp⟩ os {} ar =
      .error (.columnNotFound nm) := by
  unfold processScan
  rw [scanLoop_anon fi ⟨p0, ri, fp⟩ os {} ar, hrf]
  dsimp only [List.nil_append]
  rw [scanStep2_single]
  rw [column_node_to_name_add_self, hit]
  rfl

theorem str_beq_comm (a b : PlSmallStr) : (a == b) = (b == a) := by
  by_cases h : a = b
  · rw [h]
  · rw [beq_eq_false_iff_ne.mpr h, beq_eq_false_iff_ne.mpr (fun hh => h hh.symm)]

theorem contains_single (a x : PlSmallStr) (d : DataType) :
    Schema.contains ⟨[(a, d)]⟩ x = (a == x) := by
  simp [Schema.contains]

theorem scanCull_compute (fi : FileInfo) (P : Option (List PlSmallStr))
    (ri : Option RowIndex) (fp : Option PlSmallStr) (S : Schema) :
    scanCull fi ⟨P, ri, fp⟩ (some S) =
      ({ fi with schema := cullSchemaFp (cullSchemaRi fi.schema ri S) fp S },
       ⟨P, keepRi ri S, keepFp fp S⟩) := by
  unfold scanCull keepRi keepFp cullSchemaRi cullSchemaFp
  rcases ri with _ | r <;> rcases fp with _ | f
  · rfl
  · cases hc : S.contains f <;> simp [hc]
  · cases hc : S.contains r.name <;> simp [hc]
  · cases hc1 : S.contains r.name <;> cases hc2 : S.contains f <;> simp [hc1, hc2]

theorem scanCull_keep_idem (fi2 : FileInfo) (P : Option (List PlSmallStr))
    (ri : Option RowIndex) (fp : Option PlSmallStr) (S : Schema) :
    scanCull fi2 ⟨P, keepRi ri S, keepFp fp S⟩ (some S) =
      (fi2, ⟨P, keepRi ri S, keepFp fp S⟩) := by
  unfold scanCull keepRi keepFp
  rcases ri with _ | r <;> rcases fp with _ | f
  · rfl
  · cases hc : S.contains f <;> simp [hc]
  · cases hc : S.contains r.name <;> simp [hc]
  · cases hc1 : S.contains r.name <;> cases hc2 : S.contains f <;> simp [hc1, hc2]

theorem isVirtual_keep (ri : Option RowIndex) (fp : Option PlSmallStr)
    (nm : PlSmallStr) (d : DataType) :
    isVirtualName (keepRi ri ⟨[(nm, d)]⟩) (keepFp fp ⟨[(nm, d)]⟩) nm =
      isVirtualName ri fp nm := by
  rcases ri with _ | r <;> rcases fp with _ | f <;>
    unfold keepRi keepFp isVirtualName <;> dsimp only
  · rw [contains_single, str_beq_comm]
    cases hf : (f == nm) <;> simp [hf]
  · rw [contains_single, str_beq_comm]
    cases hr : (r.name == nm) <;> simp [hr]
  · rw [contains_single nm r.name, contains_single nm f,
      str_beq_comm nm r.name, str_beq_comm nm f]
    cases hr : (r.name == nm) <;> cases hf : (f == nm) <;> simp [hr, hf]

theorem tgf_cullSchema (sch : Schema) (ri : Option RowIndex)
    (fp : Option PlSmallStr) (nm : PlSmallStr) (d : DataType) :
    ((cullSchemaFp (cullSchemaRi sch ri ⟨[(nm, d)]⟩) fp ⟨[(nm, d)]⟩).try_get_full
        nm).map (fun it => (it.2.1, it.2.2)) =
      (sch.try_get_full nm).map (fun it => (it.2.1, it.2.2)) := by
  have step : ∀ (s : Schema) (x : PlSmallStr),
      Schema.contains ⟨[(nm, d)]⟩ x = false →
      ((s.shift_remove x).try_get_full nm).map (fun it => (it.2.1, it.2.2)) =
        (s.try_get_full nm).map (fun it => (it.2.1, it.2.2)) := by
    intro s x hx
    rw [contains_single] at hx
    exact try_get_full_shift_remove s x nm
      (fun he => by rw [he, beq_self_eq_true] at hx; cases hx)
  unfold cullSchemaRi cullSchemaFp
  rcases ri with _ | r <;> rcases fp with _ | f
  · rfl
  · cases hc : Schema.contains ⟨[(nm, d)]⟩ f
    · simp only [hc, Bool.false_eq_true, if_false]
      exact step sch f hc
    · simp only [hc, if_true]
  · cases hc : Schema.contains ⟨[(nm, d)]⟩ r.name
    · simp only [hc, Bool.false_eq_true, if_false]
      exact step sch r.name hc
    · simp only [hc, if_true]
  · cases hc1 : Schema.contains ⟨[(nm, d)]⟩ r.name <;>
      cases hc2 : Schema.contains ⟨[(nm, d)]⟩ f
    · simp only [hc1, hc2, Bool.false_eq_true, if_false]
      rw [step _ f hc2, step sch r.name hc1]
    · simp only [hc1, hc2, if_true, Bool.false_eq_true, if_false]
      exact step sch r.name hc1
    · simp only [hc1, hc2, if_true, Bool.false_eq_true, if_false]
      exact step sch f hc2
    · simp only [hc1, hc2, if_true]

theorem process_count_star_default (ctx : ProjectionContext) (schema : Schema)
    (ar : Arena AExpr) (n : Nat) (hacc : ctx.acc_projections = [])
    (hn : ctx.projected_names = []) (hlen : schema.len = n + 1) :
    ctx.process_count_star_at_scan schema ar =
      ({ ctx with
          acc_projections := [ar.size],
          projected_names :=
            [(if n = 0 then (schema.get_at_index 0).getD ("", default)
              else ((schema.entries.drop 1).find? (fun p => p.2.cheap)).getD
                ((schema.get_at_index n).getD ("", default))).1] },
       (ar.add (.column
          (if n = 0 then (schema.get_at_index 0).getD ("", default)
           else ((schema.entries.drop 1).find? (fun p => p.2.cheap)).getD
             ((schema.get_at_index n).getD ("", default))).1)).1) := by
  unfold ProjectionContext.process_count_star_at_scan
  rw [hacc, hn, hlen]
  simp [insertName, Arena.add, Arena.size]

theorem processScan_cs_idem_nonanon (s hv : Nat) (fi : FileInfo)
    (st : FileScanIR) (pr : Option Node) (p0 : Option (List PlSmallStr))
    (ri : Option RowIndex) (fp : Option PlSmallStr) (os : Option Schema)
    (ar : Arena AExpr) (q : IR) (ctx2 : ProjectionContext) (ar2 : Arena AExpr)
    (hna : (match st with | .anonymous _ => false | _ => true) = true)
    (h : processScan true s fi hv st pr ⟨p0, ri, fp⟩ os {} ar =
      .ok (q, ctx2, ar2)) (ar' : Arena AExpr) :
    ∃ fi2 usa2 os2 ctx3 ar3, q = .scan s fi2 hv st pr usa2 os2 ∧
      processScan true s fi2 hv st pr usa2 os2 {} ar' = .ok (q, ctx3, ar3) := by
  rw [processScan_cs_nonanon s fi hv st pr p0 ri fp os ar hna] at h
  simp only [Except.ok.injEq, Prod.mk.injEq] at h
  obtain ⟨hq, -⟩ := h
  rw [scanCull_empty_os fi (some []) ri fp] at hq
  refine ⟨(scanCull fi ⟨some [], ri, fp⟩ (some ⟨[]⟩)).1, ⟨some [], none, none⟩,
    some ⟨[]⟩, {}, ar', hq.symm, ?_⟩
  rw [processScan_cs_nonanon s _ hv st pr (some []) none none (some ⟨[]⟩) ar' hna]
  rw [scanCull_virtual_none]
  rw [hq]

theorem processScan_idem (cs : Bool) (s hv : Nat) (fi : FileInfo)
    (st : FileScanIR) (pr : Option Node) (usa : UnifiedScanArgs)
    (os : Option Schema) (ar : Arena AExpr) (q : IR)
    (ctx2 : ProjectionContext) (ar2 : Arena AExpr)
    (h : processScan cs s fi hv st pr usa os {} ar = .ok (q, ctx2, ar2))
    (ar' : Arena AExpr) :
    ∃ fi2 usa2 os2 ctx3 ar3, q = .scan s fi2 hv st pr usa2 os2 ∧
      processScan cs s fi2 hv st pr usa2 os2 {} ar' = .ok (q, ctx3, ar3) := by
  rcases hdo : scanDoOptimization st with _ | _
  · rw [processScan_noopt cs s fi hv st pr usa os {} ar hdo] at h
    simp only [Except.ok.injEq, Prod.mk.injEq] at h
    obtain ⟨hq, -⟩ := h
    refine ⟨(scanCull fi usa os).1, (scanCull fi usa os).2, os, {}, ar',
      hq.symm, ?_⟩
    rw [processScan_noopt cs s _ hv st pr _ os {} ar' hdo, scanCull_idem]
    rw [hq]
  · cases cs with
    | false =>
      rcases usa with ⟨p0, ri, fp⟩
      have h' : processScan false s fi hv st pr ⟨p0, ri, fp⟩ os ⟨[], [], {}⟩ ar =
          .ok (q, ctx2, ar2) := h
      rw [processScan_false_opt s fi hv st pr p0 ri fp os [] {} ar hdo] at h'
      simp only [Except.ok.injEq, Prod.mk.injEq] at h'
      obtain ⟨hq, -⟩ := h'
      refine ⟨fi, ⟨none, ri, fp⟩, none, ⟨[], [], {}⟩, ar', hq.symm, ?_⟩
      have h2 := processScan_false_opt s fi hv st pr none ri fp none [] {} ar' hdo
      rw [hq] at h2
      exact h2
    | true =>
      rcases hna : (match st with | .anonymous _ => false | _ => true) with _ | _
      · cases st with
        | anonymous a =>
          have ha : a = true := hdo
          subst ha
          rcases usa with ⟨p0, ri, fp⟩
          rcases hrf : readerFirstName fi.reader_schema with _ | nm
          · rw [processScan_anon_none s fi hv pr p0 ri fp os ar hrf] at h
            simp only [Except.ok.injEq, Prod.mk.injEq] at h
            obtain ⟨hq, -⟩ := h
            rw [scanCull_empty_os fi (some []) ri fp] at hq
            refine ⟨(scanCull fi ⟨some [], ri, fp⟩ (some ⟨[]⟩)).1,
              ⟨some [], none, none⟩, some ⟨[]⟩, {}, ar', hq.symm, ?_⟩
            have hrf2 : readerFirstName
                (scanCull fi ⟨some [], ri, fp⟩ (some ⟨[]⟩)).1.reader_schema =
                none := by
              rw [scanCull_reader]
              exact hrf
            rw [processScan_anon_none s _ hv pr (some []) none none (some ⟨[]⟩)
              ar' hrf2]
            rw [scanCull_virtual_none]
            rw [hq]
          · rcases hit : fi.schema.try_get_full nm with _ | it
            · rw [processScan_anon_err s fi hv pr p0 ri fp os ar nm hrf hit] at h
              exact Except.noConfusion h
            · have hnm : it.2.1 = nm := (Schema.try_get_full_some fi.schema nm it hit).1
              rw [processScan_anon_some s fi hv pr p0 ri fp os ar nm it hrf hit] at h
              simp only [Except.ok.injEq, Prod.mk.injEq] at h
              obtain ⟨hq, -⟩ := h
              rw [hnm] at hq
              rw [scanCull_compute fi
                (some (if isVirtualName ri fp nm then [] else [nm])) ri fp
                ⟨[(nm, it.2.2)]⟩] at hq
              dsimp only at hq
              have hmap := tgf_cullSchema fi.schema ri fp nm it.2.2
              rw [hit] at hmap
              rcases hx : ((cullSchemaFp (cullSchemaRi fi.schema ri
                  ⟨[(nm, it.2.2)]⟩) fp ⟨[(nm, it.2.2)]⟩).try_get_full nm)
                with _ | it2
              · rw [hx] at hmap
                exact Option.noConfusion hmap
              · rw [hx] at hmap
                simp only [Option.map_some', Option.some.injEq,
                  Prod.mk.injEq] at hmap
                obtain ⟨h21, h22⟩ := hmap
                rw [hnm] at h21
                have hrf2 : readerFirstName
                    ({ fi with schema := cullSchemaFp (cullSchemaRi fi.schema ri
                      ⟨[(nm, it.2.2)]⟩) fp ⟨[(nm, it.2.2)]⟩} :
                      FileInfo).reader_schema = some nm := hrf
                have hrun := processScan_anon_some s
                  { fi with schema := cullSchemaFp (cullSchemaRi fi.schema ri
                      ⟨[(nm, it.2.2)]⟩) fp ⟨[(nm, it.2.2)]⟩ } hv pr
                  (some (if isVirtualName ri fp nm then [] else [nm]))
                  (keepRi ri ⟨[(nm, it.2.2)]⟩) (keepFp fp ⟨[(nm, it.2.2)]⟩)
                  (some ⟨[(nm, it.2.2)]⟩) ar' nm it2 hrf2 hx
                rw [h21, h22] at hrun
                rw [isVirtual_keep ri fp nm it.2.2] at hrun
                rw [scanCull_keep_idem _
                  (some (if isVirtualName ri fp nm then [] else [nm])) ri fp
                  ⟨[(nm, it.2.2)]⟩] at hrun
                refine ⟨_, _, _, ⟨[ar'.size], [], {}⟩,
                  (ar'.add (.column nm)).1, hq.symm, ?_⟩
                rw [hq] at hrun
                exact hrun
        | ndjson => exact Bool.noConfusion hna
        | ipc => exact Bool.noConfusion hna
        | csv => exact Bool.noConfusion hna
        | parquet => exact Bool.noConfusion hna
        | pythonDataset => exact Bool.noConfusion hna
      · rcases usa with ⟨p0, ri, fp⟩
        exact processScan_cs_idem_nonanon s hv fi st pr p0 ri fp os ar q ctx2
          ar2 hna h ar'

theorem pushDown_dfscan_false (df : Nat) (schema : Schema) (os : Option Schema)
    (ar : Arena AExpr) :
    pushDown false (.dataframeScan df schema os) {} ar =
      .ok (.dataframeScan df schema os, ar) := rfl

theorem pushDown_dfscan_true_len0 (df : Nat) (schema : Schema)
    (os : Option Schema) (ar : Arena AExpr) (hlen : schema.len = 0) :
    pushDown true (.dataframeScan df schema os) {} ar =
      .ok (.dataframeScan df schema os, ar) := by
  simp only [pushDown, if_true]
  rw [process_count_star_len0 {} schema ar hlen]
  rfl

theorem pushDown_dfscan_true (df : Nat) (schema : Schema) (os : Option Schema)
    (ar : Arena AExpr) (n : Nat) (hlen : schema.len = n + 1) :
    pushDown true (.dataframeScan df schema os) {} ar =
      (match schema.try_get_full
          (if n = 0 then (schema.get_at_index 0).getD ("", default)
           else ((schema.entries.drop 1).find? (fun p => p.2.cheap)).getD
             ((schema.get_at_index n).getD ("", default))).1 with
       | some it =>
         .ok (.dataframeScan df schema (some ⟨[(it.2.1, it.2.2)]⟩),
           (ar.add (.column
             (if n = 0 then (schema.get_at_index 0).getD ("", default)
              else ((schema.entries.drop 1).find? (fun p => p.2.cheap)).getD
                ((schema.get_at_index n).getD ("", default))).1)).1)
       | none =>
         .error (.columnNotFound
           (if n = 0 then (schema.get_at_index 0).getD ("", default)
            else ((schema.entries.drop 1).find? (fun p => p.2.cheap)).getD
              ((schema.get_at_index n).getD ("", default))).1)) := by
  simp only [pushDown, if_true]
  rw [process_count_star_default {} schema ar n rfl rfl hlen]
  dsimp only
  rw [show ProjectionContext.has_pushed_down
    ⟨[ar.size],
     [(if n = 0 then (schema.get_at_index 0).getD ("", default)
       else ((schema.entries.drop 1).find? (fun p => p.2.cheap)).getD
         ((schema.get_at_index n).getD ("", default))).1], {}⟩ = true from rfl]
  rw [if_pos rfl]
  rw [update_scan_schema_single]
  rw [column_node_to_name_add_self]
  rcases hget : schema.try_get_full
      (if n = 0 then (schema.get_at_index 0).getD ("", default)
       else ((schema.entries.drop 1).find? (fun p => p.2.cheap)).getD
         ((schema.get_at_index n).getD ("", default))).1 with _ | it
  · rw [hget]
    rfl
  · rw [hget, exc_bind_ok]
    rfl

theorem pushDown_snd_idem (cs : Bool) (p : IR) :
    ∀ (ar : Arena AExpr) (q : IR) (ar1 : Arena AExpr),
      pushDown cs p {} ar = .ok (q, ar1) →
      ∀ ar' : Arena AExpr, ∃ ar2 : Arena AExpr,
        pushDown cs q {} ar' = .ok (q, ar2) := by
  induction p with
  | dataframeScan df schema os =>
    intro ar q ar1 h ar'
    cases cs with
    | false =>
      rw [pushDown_dfscan_false] at h
      simp only [Except.ok.injEq, Prod.mk.injEq] at h
      obtain ⟨hq, -⟩ := h
      subst hq
      exact ⟨ar', pushDown_dfscan_false df schema os ar'⟩
    | true =>
      rcases hlen : schema.len with _ | n
      · rw [pushDown_dfscan_true_len0 df schema os ar hlen] at h
        simp only [Except.ok.injEq, Prod.mk.injEq] at h
        obtain ⟨hq, -⟩ := h
        subst hq
        exact ⟨ar', pushDown_dfscan_true_len0 df schema os ar' hlen⟩
      · rw [pushDown_dfscan_true df schema os ar n hlen] at h
        rcases hget : schema.try_get_full
            (if n = 0 then (schema.get_at_index 0).getD ("", default)
             else ((schema.entries.drop 1).find? (fun p => p.2.cheap)).getD
               ((schema.get_at_index n).getD ("", default))).1 with _ | it
        · rw [hget] at h
          exact Except.noConfusion h
        · rw [hget] at h
          simp only [Except.ok.injEq, Prod.mk.injEq] at h
          obtain ⟨hq, -⟩ := h
          subst hq
          refine ⟨(ar'.add (.column
            (if n = 0 then (schema.get_at_index 0).getD ("", default)
             else ((schema.entries.drop 1).find? (fun p => p.2.cheap)).getD
               ((schema.get_at_index n).getD ("", default))).1)).1, ?_⟩
          rw [pushDown_dfscan_true df schema _ ar' n hlen, hget]
  | scan sources fi hive st pred usa os =>
    intro ar q ar1 h ar'
    simp only [pushDown] at h
    rcases hps : processScan cs sources fi hive st pred usa os {} ar
      with e | r
    · rw [hps, exc_bind_error] at h
      exact Except.noConfusion h
    · rw [hps, exc_bind_ok] at h
      simp only [exc_pure_eq, Except.ok.injEq, Prod.mk.injEq] at h
      obtain ⟨hq, -⟩ := h
      obtain ⟨fi2, usa2, os2, ctx3, ar3, hqeq, hrun⟩ :=
        processScan_idem cs sources hive fi st pred usa os ar r.1 r.2.1 r.2.2
          (by rw [hps]) ar'
      rw [hq] at hqeq hrun
      subst hqeq
      refine ⟨ar3, ?_⟩
      simp only [pushDown]
      rw [hrun, exc_bind_ok]
      rfl
  | sort i bys slice ih =>
    intro ar q ar1 h ar'
    simp only [pushDown] at h
    rw [show sortCtx {} bys ar = {} from rfl] at h
    rcases hin : pushDown cs i {} ar with e | r
    · rw [hin, exc_bind_error] at h
      exact Except.noConfusion h
    · rw [hin, exc_bind_ok] at h
      rcases r with ⟨i2, arx⟩
      dsimp only at h
      simp only [exc_pure_eq, Except.ok.injEq, Prod.mk.injEq] at h
      obtain ⟨hq, -⟩ := h
      subst hq
      obtain ⟨ar2, hrec⟩ := ih ar i2 arx hin ar'
      refine ⟨ar2, ?_⟩
      simp only [pushDown]
      rw [show sortCtx {} bys ar' = {} from rfl, hrec, exc_bind_ok]
      rfl
  | distinct i ss ih =>
    intro ar q ar1 h ar'
    simp only [pushDown] at h
    rw [show distinctCtx {} ss i.schema ar = ({}, ar) from rfl] at h
    rcases hin : pushDown cs i {} ar with e | r
    · rw [hin, exc_bind_error] at h
      exact Except.noConfusion h
    · rw [hin, exc_bind_ok] at h
      rcases r with ⟨i2, arx⟩
      dsimp only at h
      simp only [exc_pure_eq, Except.ok.injEq, Prod.mk.injEq] at h
      obtain ⟨hq, -⟩ := h
      subst hq
      obtain ⟨ar2, hrec⟩ := ih ar i2 arx hin ar'
      refine ⟨ar2, ?_⟩
      simp only [pushDown]
      rw [show distinctCtx {} ss i2.schema ar' = ({}, ar') from rfl, hrec,
        exc_bind_ok]
      rfl
  | filter pred i ih =>
    intro ar q ar1 h ar'
    simp only [pushDown] at h
    rw [show filterCtx {} pred ar = {} from rfl] at h
    rcases hin : pushDown cs i {} ar with e | r
    · rw [hin, exc_bind_error] at h
      exact Except.noConfusion h
    · rw [hin, exc_bind_ok] at h
      rcases r with ⟨i2, arx⟩
      dsimp only at h
      simp only [exc_pure_eq, Except.ok.injEq, Prod.mk.injEq] at h
      obtain ⟨hq, -⟩ := h
      subst hq
      obtain ⟨ar2, hrec⟩ := ih ar i2 arx hin ar'
      refine ⟨ar2, ?_⟩
      simp only [pushDown]
      rw [show filterCtx {} pred ar' = {} from rfl, hrec, exc_bind_ok]
      rfl
  | cache i ih =>
    intro ar q ar1 h ar'
    have heq : pushDown cs (.cache i) {} ar = .ok (.cache i, ar) := by
      cases cs <;> rfl
    rw [heq] at h
    simp only [Except.ok.injEq, Prod.mk.injEq] at h
    obtain ⟨hq, -⟩ := h
    subst hq
    refine ⟨ar', ?_⟩
    cases cs <;> rfl
  | mergeSorted l r k ihl ihr =>
    intro ar q ar1 h ar'
    simp only [pushDown] at h
    rw [show (if ProjectionContext.has_pushed_down {} then
        add_str_to_accumulated k {} ar else ({}, ar)) = ({}, ar) from rfl] at h
    dsimp only at h
    rcases hl : pushDown cs l {} ar with e | rl
    · rw [hl, exc_bind_error] at h
      exact Except.noConfusion h
    · rw [hl, exc_bind_ok] at h
      rcases rl with ⟨l2, arL⟩
      dsimp only at h
      rcases hr : pushDown cs r {} arL with e | rr
      · rw [hr, exc_bind_error] at h
        exact Except.noConfusion h
      · rw [hr, exc_bind_ok] at h
        rcases rr with ⟨r2, arR⟩
        dsimp only at h
        simp only [exc_pure_eq, Except.ok.injEq, Prod.mk.injEq] at h
        obtain ⟨hq, -⟩ := h
        subst hq
        obtain ⟨a2, hl2⟩ := ihl ar l2 arL hl ar'
        obtain ⟨a3, hr2⟩ := ihr arL r2 arR hr a2
        refine ⟨a3, ?_⟩
        simp only [pushDown]
        rw [show (if ProjectionContext.has_pushed_down {} then
            add_str_to_accumulated k {} ar' else ({}, ar')) = ({}, ar')
          from rfl]
        dsimp only
        rw [hl2, exc_bind_ok]
        dsimp only
        rw [hr2, exc_bind_ok]
        rfl
  | simpleProjection cols i ih =>
    intro ar q ar1 h ar'
    exact Except.noConfusion h

/-- **C9**: the pass is idempotent.  Running `optimize` a second time, on the
plan and arena produced by a successful first run, returns that same plan
unchanged — the output of the first pass is a fixed point of the pass (the
arena may receive fresh expression nodes, but the plan does not change). -/
theorem optimize_idempotent (cs : Bool) (p q : IR) (ar0 ar1 : Arena AExpr)
    (h : optimize cs p ar0 = .ok (q, ar1)) :
    ∃ ar2, optimize cs q ar1 = .ok (q, ar2) :=
  pushDown_snd_idem cs p ar0 q ar1 h ar1

theorem optimize_idempotent_witness :
    ∃ ar2, optimize true
      (.dataframeScan 0 ⟨[("a", ⟨false, false, false, false⟩),
        ("b", ⟨false, true, false, false⟩)]⟩
        (some ⟨[("b", ⟨false, true, false, false⟩)]⟩))
      ⟨[.column "b"]⟩ =
      .ok (.dataframeScan 0 ⟨[("a", ⟨false, false, false, false⟩),
        ("b", ⟨false, true, false, false⟩)]⟩
        (some ⟨[("b", ⟨false, true, false, false⟩)]⟩), ar2) :=
  optimize_idempotent true
    (.dataframeScan 0 ⟨[("a", ⟨false, false, false, false⟩),
      ("b", ⟨false, true, false, false⟩)]⟩ none)
    (.dataframeScan 0 ⟨[("a", ⟨false, false, false, false⟩),
      ("b", ⟨false, true, false, false⟩)]⟩
      (some ⟨[("b", ⟨false, true, false, false⟩)]⟩))
    ⟨[]⟩ ⟨[.column "b"]⟩ (by rfl)

end PolarsProj
